import Mathlib

/-!
Shallow embedding of the WaveNet core of tf-flowavenet (`modules.py`) and a
verification of its specified properties.

A tensor of shape (batch, time, channel) is modelled per batch element as a
time-major list of channel vectors (`Seq`).  The TensorFlow primitives used by
the source (`tf.pad`, the valid-padding dilated `Conv1D`, element-wise `+` and
`*` with numpy broadcasting, `tf.add_n`, `tf.nn.relu`, scalar multiplication)
are embedded over ℚ.  The transcendental activations `tf.tanh`, `tf.sigmoid`,
`tf.exp` and the constant `tf.sqrt 0.5` are irrelevant to every property
proved here beyond being fixed functions, so they are supplied as parameters
through a `Prims` record.  Element-wise binary operations return `Option`:
`none` models a TensorFlow shape-mismatch error.
-/

namespace TFF

/-- One batch element of a (batch, time, channel) tensor: a time-major list of
channel vectors. -/
abbrev Seq : Type := List (List ℚ)

/-- The per-time-step channel widths of a sequence. -/
def shape (s : Seq) : List ℕ := s.map List.length

/-- Channel width of a sequence, read off its first time step. -/
def seqWidth (s : Seq) : ℕ :=
  match s with
  | [] => 0
  | v :: _ => v.length

/-- Scalar entry at time `t`, channel `c`; out-of-range reads are 0 (only ever
exercised on the zero padding). -/
def entry (s : Seq) (t c : ℕ) : ℚ := (((s.get? t).getD []).getD c 0)

/-- Turn a list of optional values into an optional list; `none` as soon as
one element is `none`.  Used to propagate shape errors. -/
def osequence {α : Type} : List (Option α) → Option (List α)
  | [] => some []
  | o :: rest => o.bind (fun x => (osequence rest).map (fun xs => x :: xs))

/-- Element-wise binary operation on channel vectors with numpy broadcasting:
equal lengths operate pointwise, a length-1 operand broadcasts, anything else
is a shape error. -/
def vecZipB (f : ℚ → ℚ → ℚ) (a b : List ℚ) : Option (List ℚ) :=
  if a.length = b.length then some (List.zipWith f a b)
  else if a.length = 1 then some (b.map (fun z => f (a.headD 0) z))
  else if b.length = 1 then some (a.map (fun z => f z (b.headD 0)))
  else none

/-- Element-wise binary operation on sequences with numpy broadcasting along
the time axis, then along the channel axis. -/
def seqZipB (f : ℚ → ℚ → ℚ) (a b : Seq) : Option Seq :=
  if a.length = b.length then osequence (List.zipWith (vecZipB f) a b)
  else if a.length = 1 then osequence (b.map (fun v => vecZipB f (a.headD []) v))
  else if b.length = 1 then osequence (a.map (fun u => vecZipB f u (b.headD [])))
  else none

/-- TensorFlow `+` on two (time, channel) tensors. -/
def seqAdd : Seq → Seq → Option Seq := seqZipB (· + ·)

/-- TensorFlow `*` on two (time, channel) tensors. -/
def seqMul : Seq → Seq → Option Seq := seqZipB (· * ·)

/-- `tf.add_n` summand step: requires identical shapes, no broadcasting. -/
def vecAddStrict (a b : List ℚ) : Option (List ℚ) :=
  if a.length = b.length then some (List.zipWith (· + ·) a b) else none

/-- `tf.add_n` summand step on sequences: requires identical shapes. -/
def seqAddStrict (a b : Seq) : Option Seq :=
  if a.length = b.length then osequence (List.zipWith vecAddStrict a b) else none

/-- `tf.add_n`: sum of a non-empty list of same-shaped tensors. -/
def addN : List Seq → Option Seq
  | [] => none
  | s :: rest => rest.foldlM seqAddStrict s

/-- Map a scalar function over every entry (e.g. `tf.tanh`, `tf.nn.relu`). -/
def seqMap (f : ℚ → ℚ) (s : Seq) : Seq := s.map (List.map f)

/-- Multiply every entry by a scalar (broadcast of a scalar factor). -/
def seqScale (s : Seq) (r : ℚ) : Seq := s.map (List.map (fun z => z * r))

/-- `tf.nn.relu` on scalars. -/
def relu (x : ℚ) : ℚ := max x 0

/-- The transcendental primitives of the source, abstracted: `tf.tanh`,
`tf.sigmoid`, `tf.exp` and the constant `tf.sqrt 0.5`.  No property proved
here depends on their values. -/
structure Prims where
  tanh : ℚ → ℚ
  sigmoid : ℚ → ℚ
  exp : ℚ → ℚ
  sqrtHalf : ℚ

/-- `tf.pad(tensor, ((0,0),(P,P),(0,0)))`: zero vectors of the sequence's own
channel width, `P` on each side of the time axis. -/
def padSeq (P : ℕ) (x : Seq) : Seq :=
  List.replicate P (List.replicate (seqWidth x) (0 : ℚ)) ++ x ++
    List.replicate P (List.replicate (seqWidth x) (0 : ℚ))

/-- The keras-style `Conv1D` layer imported by `modules.py`: a dilated 1-D
convolution with `valid` padding.  `kernel i c o` is the weight of tap `i`,
input channel `c`, output channel `o`. -/
structure Conv1D where
  filters : ℕ
  kernel_size : ℕ
  dilation : ℕ
  kernel : ℕ → ℕ → ℕ → ℚ
  bias : ℕ → ℚ

/-- Modelled from the spec: the `Conv1D` layer class is imported from a
`convolutional` module that is not present under src/; per the spec
("constructing with kernel_size <= 0 or dilation <= 0 is a configuration
error") layer construction rejects non-positive kernel size or dilation. -/
def Conv1D.make (filters : ℕ) (kernel_size dilation : ℤ)
    (kernel : ℕ → ℕ → ℕ → ℚ) (bias : ℕ → ℚ) : Option Conv1D :=
  if kernel_size ≤ 0 ∨ dilation ≤ 0 then none
  else some ⟨filters, kernel_size.toNat, dilation.toNat, kernel, bias⟩

/-- Output time-length of a valid-padding dilated convolution on `n` steps. -/
def Conv1D.outLen (L : Conv1D) (n : ℕ) : ℕ :=
  n - L.dilation * (L.kernel_size - 1)

/-- Apply the convolution: output at time `t`, channel `o` sums the taps at
input times `t + i * dilation` over the input's channel width. -/
def Conv1D.apply (L : Conv1D) (x : Seq) : Seq :=
  (List.range (L.outLen x.length)).map (fun t =>
    (List.range L.filters).map (fun o =>
      L.bias o + ∑ i ∈ Finset.range L.kernel_size, ∑ c ∈ Finset.range (seqWidth x),
        entry x (t + i * L.dilation) c * L.kernel i c o))

/-- The `Conv` wrapper of `modules.py`: explicit symmetric zero padding, a
valid-padding `Conv1D`, and causal truncation of the trailing steps. -/
structure Conv where
  in_channels : ℕ
  causal : Bool
  padding : ℕ
  conv : Conv1D

/-- `Conv.__init__`: causal padding `dilation * (kernel_size - 1)`, else the
floor half of that (Python `//`); the layer construction may reject the
configuration. -/
def Conv.make (in_channels out_channels : ℕ) (kernel_size dilation : ℤ)
    (causal : Bool) (kernel : ℕ → ℕ → ℕ → ℚ) (bias : ℕ → ℚ) : Option Conv :=
  let padI : ℤ :=
    if causal then dilation * (kernel_size - 1)
    else Int.fdiv (dilation * (kernel_size - 1)) 2
  (Conv1D.make out_channels kernel_size dilation kernel bias).map
    (fun L => ⟨in_channels, causal, padI.toNat, L⟩)

/-- `Conv.forward`: pad both sides of the time axis, convolve, and when causal
drop the last `padding` steps.  CPython interns small integers, so the
source's `self._padding is not 0` test is the numeric test `padding ≠ 0`. -/
def Conv.forward (C : Conv) (x : Seq) : Seq :=
  let out := C.conv.apply (padSeq C.padding x)
  if C.causal = true ∧ C.padding ≠ 0 then out.take (out.length - C.padding)
  else out

/-- `ZeroConv1d`: a 1×1 convolution with zero-initialized kernel, bias and
per-channel scale, whose output is multiplied by `exp(scale * 3)`. -/
structure ZeroConv1d where
  conv : Conv1D
  scale : ℕ → ℚ

/-- `ZeroConv1d.__init__`: kernel-size-1 convolution, all parameters zero. -/
def ZeroConv1d.make (in_channel out_channel : ℕ) : ZeroConv1d :=
  ⟨⟨out_channel, 1, 1, fun _ _ _ => 0, fun _ => 0⟩, fun _ => 0⟩

/-- The per-channel factor `tf.exp(self._scale * 3)` of `ZeroConv1d`. -/
def ZeroConv1d.scaleVec (Z : ZeroConv1d) (P : Prims) : List ℚ :=
  (List.range Z.conv.filters).map (fun o => P.exp (Z.scale o * 3))

/-- `ZeroConv1d.forward`: convolve, then multiply each time step by the
broadcast `[1, 1, out_channel]` factor `exp(scale * 3)`. -/
def ZeroConv1d.forward (Z : ZeroConv1d) (P : Prims) (x : Seq) : Option Seq :=
  (Z.conv.apply x).mapM (fun v => vecZipB (· * ·) v (Z.scaleVec P))

/-- Raw parameters of one `ResBlock`: kernels and biases for the filter and
gate convolutions, the 1×1 residual and skip projections, and the two 1×1
conditioning projections. -/
structure ResBlockW where
  filterK : ℕ → ℕ → ℕ → ℚ
  filterB : ℕ → ℚ
  gateK : ℕ → ℕ → ℕ → ℚ
  gateB : ℕ → ℚ
  resK : ℕ → ℕ → ℕ → ℚ
  resB : ℕ → ℚ
  skipK : ℕ → ℕ → ℕ → ℚ
  skipB : ℕ → ℚ
  condFK : ℕ → ℕ → ℕ → ℚ
  condFB : ℕ → ℚ
  condGK : ℕ → ℕ → ℕ → ℚ
  condGB : ℕ → ℚ

/-- `ResBlock`: gated residual block.  `skip_conv` exists iff `skip_channels`
was given; `cond_convs` exists iff local conditioning is enabled. -/
structure ResBlock where
  causal : Bool
  filter_conv : Conv
  gate_conv : Conv
  res_conv : Conv1D
  skip_conv : Option Conv1D
  cond_convs : Option (Conv1D × Conv1D)

/-- `ResBlock.__init__`.  `cin_channels` is stored but never used by the
source, so it does not appear in the result. -/
def ResBlock.make (in_channels out_channels : ℕ) (skip_channels : Option ℕ)
    (kernel_size dilation : ℤ) (local_conditioning : Bool) (causal : Bool)
    (w : ResBlockW) : Option ResBlock :=
  (Conv.make in_channels out_channels kernel_size dilation causal w.filterK w.filterB).bind
    (fun fc =>
      (Conv.make in_channels out_channels kernel_size dilation causal w.gateK w.gateB).map
        (fun gc =>
          ⟨causal, fc, gc, ⟨out_channels, 1, 1, w.resK, w.resB⟩,
            skip_channels.map (fun s => ⟨s, 1, 1, w.skipK, w.skipB⟩),
            if local_conditioning then
              some (⟨out_channels, 1, 1, w.condFK, w.condFB⟩,
                    ⟨out_channels, 1, 1, w.condGK, w.condGB⟩)
            else none⟩))

/-- `ResBlock.forward`: filter/gate convolutions, optional added conditioning
projections, gated fusion `tanh * sigmoid`, 1×1 residual and skip
projections, and the `(tensor + res) * sqrt 0.5` output stream. -/
def ResBlock.forward (B : ResBlock) (P : Prims) (tensor : Seq) (c : Option Seq) :
    Option (Seq × Option Seq) := do
  let hf0 := B.filter_conv.forward tensor
  let hg0 := B.gate_conv.forward tensor
  let (hf, hg) ←
    match B.cond_convs with
    | some fg => do
      let cv ← c
      let hf ← seqAdd hf0 (fg.1.apply cv)
      let hg ← seqAdd hg0 (fg.2.apply cv)
      pure (hf, hg)
    | none => pure (hf0, hg0)
  let out ← seqMul (seqMap P.tanh hf) (seqMap P.sigmoid hg)
  let res := B.res_conv.apply out
  let skip := B.skip_conv.map (fun sc => sc.apply out)
  let str ← seqAdd tensor res
  pure (seqScale str P.sqrtHalf, skip)

/-- Raw parameters of a `WaveNet`: the front and final convolutions and one
`ResBlockW` per (group, layer) position. -/
structure WaveNetW where
  frontK : ℕ → ℕ → ℕ → ℚ
  frontB : ℕ → ℚ
  blockW : ℕ → ℕ → ResBlockW
  finalK : ℕ → ℕ → ℕ → ℚ
  finalB : ℕ → ℚ

/-- `WaveNet`: front convolution, the sequential gated residual blocks, and
the two-stage output projection. -/
structure WaveNet where
  skip : Bool
  front_conv : Conv
  res_blocks : List ResBlock
  final_conv : Conv
  final_zero_conv : ZeroConv1d

/-- `WaveNet.__init__`: front `Conv` of kernel size 3, then for each group
`b < num_blocks` and layer `n < num_layers` a `ResBlock` with dilation
`kernel_size ^ n` and local conditioning, then the kernel-size-1 final `Conv`
and the `ZeroConv1d`, both on `skip_channels` (or `residual_channels` when
skip is disabled). -/
def WaveNet.make (in_channels out_channels : ℕ) (num_blocks num_layers : ℤ)
    (residual_channels gate_channels : ℕ) (skip_channels : Option ℕ)
    (kernel_size : ℤ) (causal : Bool) (w : WaveNetW) : Option WaveNet := do
  let front ← Conv.make in_channels residual_channels 3 1 causal w.frontK w.frontB
  let blocks ← ((List.range num_blocks.toNat).flatMap (fun b =>
      (List.range num_layers.toNat).map (fun n => (b, n)))).mapM
    (fun bn => ResBlock.make residual_channels gate_channels skip_channels
      kernel_size (kernel_size ^ bn.2) true causal (w.blockW bn.1 bn.2))
  let lastC := skip_channels.getD residual_channels
  let final ← Conv.make lastC lastC 1 1 causal w.finalK w.finalB
  some ⟨skip_channels.isSome, front, blocks, final,
    ZeroConv1d.make lastC out_channels⟩

/-- `WaveNet.forward`: front convolution and relu, the sequential blocks
threading the residual stream and collecting skip outputs when enabled, then
skip aggregation by `tf.add_n` (or the final stream), relu, final
convolution, relu, and the zero-initialized output convolution. -/
def WaveNet.forward (W : WaveNet) (P : Prims) (x : Seq) (c : Option Seq) :
    Option Seq := do
  let h0 := seqMap relu (W.front_conv.forward x)
  let (h, skips) ← W.res_blocks.foldlM (fun acc B => do
      let (s, sk) ← B.forward P acc.1 c
      if W.skip then pure (s, acc.2 ++ [sk]) else pure (s, acc.2))
    (h0, ([] : List (Option Seq)))
  if W.skip then do
    let svs ← skips.mapM id
    let o1 ← addN svs
    let o2 := W.final_conv.forward (seqMap relu o1)
    W.final_zero_conv.forward P (seqMap relu o2)
  else do
    let o1 := W.final_conv.forward (seqMap relu h)
    W.final_zero_conv.forward P (seqMap relu o1)

/-- Two sequences of the same shape that agree at every time index `≤ t`. -/
def AgreeUpTo (t : ℕ) (a b : Seq) : Prop :=
  shape a = shape b ∧ ∀ s, s ≤ t → a.get? s = b.get? s

/-- `AgreeUpTo` lifted to optional results: both fail, or both succeed and
agree. -/
def OAgreeUpTo (t : ℕ) (a b : Option Seq) : Prop :=
  match a, b with
  | none, none => True
  | some a, some b => AgreeUpTo t a b
  | _, _ => False

/-- Agreement of the (stream, optional skip) results of `ResBlock.forward`. -/
def PairAgree (t : ℕ) (p q : Option (Seq × Option Seq)) : Prop :=
  match p, q with
  | none, none => True
  | some p, some q => AgreeUpTo t p.1 q.1 ∧ OAgreeUpTo t p.2 q.2
  | _, _ => False

/-- A convolution layer that reads a single time step per output step. -/
def Conv1D.pointwise (L : Conv1D) : Prop := L.dilation * (L.kernel_size - 1) = 0

/-- A `Conv` in causal configuration: the causal flag is set and the stored
padding equals `dilation * (kernel_size - 1)` of its layer. -/
def Conv.CausalWF (C : Conv) : Prop :=
  C.causal = true ∧ C.padding = C.conv.dilation * (C.conv.kernel_size - 1)

/-- A `ResBlock` whose convolutions are all causal or pointwise. -/
def ResBlock.CausalWF (B : ResBlock) : Prop :=
  B.filter_conv.CausalWF ∧ B.gate_conv.CausalWF ∧ B.res_conv.pointwise ∧
    (∀ L, B.skip_conv = some L → L.pointwise) ∧
    (∀ fg, B.cond_convs = some fg → fg.1.pointwise ∧ fg.2.pointwise)

/-- A `WaveNet` whose components are all causal or pointwise. -/
def WaveNet.CausalWF (W : WaveNet) : Prop :=
  W.front_conv.CausalWF ∧ (∀ B ∈ W.res_blocks, B.CausalWF) ∧
    W.final_conv.CausalWF ∧ W.final_zero_conv.conv.pointwise

/-- All channel vectors of a sequence have width `w`. -/
def WidthIs (w : ℕ) (s : Seq) : Prop := ∀ v ∈ s, v.length = w

/-- The length of a broadcast binary operation's result, as a function of the
operand lengths only (mirrors the branching of `vecZipB`). -/
def vecLenB (m n : ℕ) : Option ℕ :=
  if m = n then some (min m n) else if m = 1 then some n
  else if n = 1 then some m else none

/-- Pairwise `OAgreeUpTo` on two collected skip lists. -/
def SkipsAgree (t : ℕ) (l1 l2 : List (Option Seq)) : Prop :=
  List.Forall₂ (fun a b => OAgreeUpTo t a b) l1 l2

/-- Agreement of the fold state of `WaveNet.forward`: the running stream and
the collected skip outputs. -/
def StateAgree (t : ℕ) (p q : Option (Seq × List (Option Seq))) : Prop :=
  match p, q with
  | none, none => True
  | some p, some q => AgreeUpTo t p.1 q.1 ∧ SkipsAgree t p.2 q.2
  | _, _ => False

/-- All-zero convolution kernel, used for concrete instances. -/
def zK : ℕ → ℕ → ℕ → ℚ := fun _ _ _ => 0

/-- All-zero bias, used for concrete instances. -/
def zB : ℕ → ℚ := fun _ => 0

/-- Concrete primitives for evaluating instances; their values are free. -/
def P1 : Prims := ⟨fun z => z, fun z => z, fun _ => 1, 1⟩

/-- The result of `Conv.make 1 2 3 2 true zK zB`. -/
def convC3 : Conv := ⟨1, true, 4, ⟨2, 3, 2, zK, zB⟩⟩

/-- The result of `Conv.make 1 1 2 1 false zK zB`: a non-causal convolution
with an odd `dilation * (kernel_size - 1)`. -/
def convC4 : Conv := ⟨1, false, 0, ⟨1, 2, 1, zK, zB⟩⟩

/-- The result of `Conv.make 1 2 1 3 true zK zB`: a causal kernel-size-1
convolution, whose padding is zero. -/
def convC9 : Conv := ⟨1, true, 0, ⟨2, 1, 3, zK, zB⟩⟩

/-- All-zero parameters for one residual block. -/
def wZeroRB : ResBlockW := ⟨zK, zB, zK, zB, zK, zB, zK, zB, zK, zB, zK, zB⟩

/-- All-zero parameters for a whole stack. -/
def wZeroNet : WaveNetW := ⟨zK, zB, fun _ _ => wZeroRB, zK, zB⟩

/-- The result of `ResBlock.make 1 1 (some 1) 1 1 true true wZeroRB`: a
conditioned causal block with kernel size 1. -/
def rbC5 : ResBlock :=
  ⟨true, ⟨1, true, 0, ⟨1, 1, 1, zK, zB⟩⟩, ⟨1, true, 0, ⟨1, 1, 1, zK, zB⟩⟩,
    ⟨1, 1, 1, zK, zB⟩, some ⟨1, 1, 1, zK, zB⟩,
    some (⟨1, 1, 1, zK, zB⟩, ⟨1, 1, 1, zK, zB⟩)⟩

/-- The result of `ResBlock.make 2 1 none 1 1 false true wZeroRB`: an
unconditioned causal block with stream width 2 but only 1 output channel. -/
def rbC10 : ResBlock :=
  ⟨true, ⟨2, true, 0, ⟨1, 1, 1, zK, zB⟩⟩, ⟨2, true, 0, ⟨1, 1, 1, zK, zB⟩⟩,
    ⟨1, 1, 1, zK, zB⟩, none, none⟩

/-- The result of `WaveNet.make 1 1 1 1 1 1 none 1 true wZeroNet`: a stack
with skip channels disabled. -/
def wnetC8 : WaveNet :=
  ⟨false, ⟨1, true, 2, ⟨1, 3, 1, zK, zB⟩⟩,
    [⟨true, ⟨1, true, 0, ⟨1, 1, 1, zK, zB⟩⟩, ⟨1, true, 0, ⟨1, 1, 1, zK, zB⟩⟩,
       ⟨1, 1, 1, zK, zB⟩, none, some (⟨1, 1, 1, zK, zB⟩, ⟨1, 1, 1, zK, zB⟩)⟩],
    ⟨1, true, 0, ⟨1, 1, 1, zK, zB⟩⟩, ZeroConv1d.make 1 1⟩

/-- The result of
`WaveNet.make 1 1 1 2 1 1 (some 1) 2 true wZeroNet`: one group of two layers
with kernel size 2, so the two blocks carry dilations 1 and 2. -/
def wnetC6 : WaveNet :=
  ⟨true, ⟨1, true, 2, ⟨1, 3, 1, zK, zB⟩⟩,
    [⟨true, ⟨1, true, 1, ⟨1, 2, 1, zK, zB⟩⟩, ⟨1, true, 1, ⟨1, 2, 1, zK, zB⟩⟩,
       ⟨1, 1, 1, zK, zB⟩, some ⟨1, 1, 1, zK, zB⟩,
       some (⟨1, 1, 1, zK, zB⟩, ⟨1, 1, 1, zK, zB⟩)⟩,
     ⟨true, ⟨1, true, 2, ⟨1, 2, 2, zK, zB⟩⟩, ⟨1, true, 2, ⟨1, 2, 2, zK, zB⟩⟩,
       ⟨1, 1, 1, zK, zB⟩, some ⟨1, 1, 1, zK, zB⟩,
       some (⟨1, 1, 1, zK, zB⟩, ⟨1, 1, 1, zK, zB⟩)⟩],
    ⟨1, true, 0, ⟨1, 1, 1, zK, zB⟩⟩, ZeroConv1d.make 1 1⟩

/-! ## Basic lemmas about the embedding -/

theorem pad_toNat {k d : ℤ} (hk : 0 < k) (hd : 0 < d) :
    (d * (k - 1)).toNat = d.toNat * (k.toNat - 1) := by
  lift k to ℕ using hk.le
  lift d to ℕ using hd.le
  rw [show ((k : ℤ) - 1) = ((k - 1 : ℕ) : ℤ) by omega, ← Nat.cast_mul,
    Int.toNat_ofNat]
  simp

theorem halfpad_toNat {k d : ℤ} (hk : 0 < k) (hd : 0 < d) :
    (Int.fdiv (d * (k - 1)) 2).toNat = d.toNat * (k.toNat - 1) / 2 := by
  lift k to ℕ using hk.le
  lift d to ℕ using hd.le
  rw [show ((k : ℤ) - 1) = ((k - 1 : ℕ) : ℤ) by omega, ← Nat.cast_mul,
    show (2 : ℤ) = ((2 : ℕ) : ℤ) by rfl, ← Int.ofNat_fdiv, Int.toNat_ofNat]
  simp

theorem conv1dMake_some {filters : ℕ} {k d : ℤ} {kw kb} {L : Conv1D}
    (h : Conv1D.make filters k d kw kb = some L) :
    0 < k ∧ 0 < d ∧ L = ⟨filters, k.toNat, d.toNat, kw, kb⟩ := by
  unfold Conv1D.make at h
  split at h
  · exact absurd h (by simp)
  · next hkd =>
    push_neg at hkd
    exact ⟨by omega, by omega, (Option.some.injEq _ _ ▸ h).symm⟩

theorem convMake_some {ic oc : ℕ} {k d : ℤ} {cs : Bool} {kw kb} {C : Conv}
    (h : Conv.make ic oc k d cs kw kb = some C) :
    0 < k ∧ 0 < d ∧
      C = ⟨ic, cs,
        (if cs then d * (k - 1) else Int.fdiv (d * (k - 1)) 2).toNat,
        ⟨oc, k.toNat, d.toNat, kw, kb⟩⟩ := by
  unfold Conv.make at h
  rw [Option.map_eq_some'] at h
  obtain ⟨L, hL, hC⟩ := h
  obtain ⟨hk, hd, rfl⟩ := conv1dMake_some hL
  exact ⟨hk, hd, hC.symm⟩

theorem Conv.make_conv_fields {ic oc : ℕ} {k d : ℤ} {cs : Bool} {kw kb} {C : Conv}
    (h : Conv.make ic oc k d cs kw kb = some C) :
    C.causal = cs ∧ C.conv.filters = oc ∧ C.conv.kernel_size = k.toNat ∧
      C.conv.dilation = d.toNat ∧ C.conv.kernel = kw ∧ C.conv.bias = kb := by
  obtain ⟨-, -, rfl⟩ := convMake_some h
  exact ⟨rfl, rfl, rfl, rfl, rfl, rfl⟩

theorem convMake_causalWF {ic oc : ℕ} {k d : ℤ} {kw kb} {C : Conv}
    (h : Conv.make ic oc k d true kw kb = some C) : C.CausalWF := by
  obtain ⟨hk, hd, rfl⟩ := convMake_some h
  exact ⟨rfl, by simp [pad_toNat hk hd]⟩

theorem Conv.make_causal_padding {ic oc : ℕ} {k d : ℤ} {kw kb} {C : Conv}
    (h : Conv.make ic oc k d true kw kb = some C) :
    C.padding = d.toNat * (k.toNat - 1) := by
  obtain ⟨hk, hd, rfl⟩ := convMake_some h
  simp [pad_toNat hk hd]

theorem padSeq_zero (x : Seq) : padSeq 0 x = x := by
  simp [padSeq]

theorem length_shape (s : Seq) : (shape s).length = s.length := by
  simp [shape]

theorem shape_get? (s : Seq) (i : ℕ) :
    (shape s).get? i = (s.get? i).map List.length := by
  simp [shape, List.get?_map]

theorem seqWidth_eq_of_shape {a b : Seq} (h : shape a = shape b) :
    seqWidth a = seqWidth b := by
  cases a <;> cases b <;> simp_all [shape, seqWidth]

theorem AgreeUpTo.length_eq {t : ℕ} {a b : Seq} (h : AgreeUpTo t a b) :
    a.length = b.length := by
  have := congrArg List.length h.1
  simpa [length_shape] using this

theorem AgreeUpTo.rfl {t : ℕ} {a : Seq} : AgreeUpTo t a a :=
  ⟨Eq.refl _, fun _ _ => Eq.refl _⟩

theorem Conv1D.apply_length (L : Conv1D) (x : Seq) :
    (L.apply x).length = L.outLen x.length := by
  simp [Conv1D.apply]

theorem Conv1D.apply_width (L : Conv1D) (x : Seq) :
    WidthIs L.filters (L.apply x) := by
  intro v hv
  simp only [Conv1D.apply, List.mem_map, List.mem_range] at hv
  obtain ⟨t, -, rfl⟩ := hv
  simp

theorem Conv1D.apply_shape (L : Conv1D) (x : Seq) :
    shape (L.apply x) = List.replicate (L.outLen x.length) L.filters := by
  rw [List.eq_replicate]
  constructor
  · simp [length_shape, Conv1D.apply_length]
  · intro b hb
    simp only [shape, List.mem_map] at hb
    obtain ⟨v, hv, rfl⟩ := hb
    exact Conv1D.apply_width L x v hv

theorem padSeq_length (P : ℕ) (x : Seq) :
    (padSeq P x).length = x.length + 2 * P := by
  simp [padSeq]
  omega

theorem Conv.forward_causal_eq {C : Conv} (hC : C.CausalWF) (x : Seq) :
    C.forward x = (C.conv.apply (padSeq C.padding x)).take x.length := by
  obtain ⟨hc, hp⟩ := hC
  have hlen : (C.conv.apply (padSeq C.padding x)).length = x.length + C.padding := by
    rw [Conv1D.apply_length, Conv1D.outLen, padSeq_length, ← hp]
    omega
  unfold Conv.forward
  by_cases h0 : C.padding = 0
  · rw [if_neg (by simp [h0])]
    exact (List.take_of_length_le (by omega)).symm
  · rw [if_pos ⟨hc, h0⟩, hlen, Nat.add_sub_cancel]

theorem Conv.forward_causal_length {C : Conv} (hC : C.CausalWF) (x : Seq) :
    (C.forward x).length = x.length := by
  rw [Conv.forward_causal_eq hC, List.length_take, Conv1D.apply_length,
    Conv1D.outLen, padSeq_length, ← hC.2]
  omega

/-! ## Claim theorems: padding and shape -/

/-- C3: a causal `Conv` pads the time axis by `P = dilation * (kernel_size - 1)`
on both sides, convolves with valid semantics, discards the trailing `P` steps
when `P ≠ 0`, and returns an output of the input's time-length. -/
theorem causal_conv_pads_convolves_truncates {ic oc : ℕ} {k d : ℤ} {kw kb}
    {C : Conv} (h : Conv.make ic oc k d true kw kb = some C) :
    C.padding = d.toNat * (k.toNat - 1) ∧
      ∀ x : Seq,
        C.forward x = (C.conv.apply (padSeq C.padding x)).take x.length ∧
          (C.forward x).length = x.length := by
  have hWF := convMake_causalWF h
  obtain ⟨hk, hd, rfl⟩ := convMake_some h
  refine ⟨by simp [pad_toNat hk hd], fun x => ?_⟩
  exact ⟨Conv.forward_causal_eq hWF x, Conv.forward_causal_length hWF x⟩

theorem causal_conv_pads_convolves_truncates_witness :
    convC3.padding = 4 ∧ (convC3.forward [[1], [2], [3]]).length = 3 := by
  have h := @causal_conv_pads_convolves_truncates 1 2 3 2 zK zB convC3 rfl
  exact ⟨h.1, (h.2 [[1], [2], [3]]).2⟩

/-- C9: in a causal `Conv`, the truncation of the last `padding` steps runs
exactly when the padding amount is numerically nonzero (CPython interns small
integers, so the source's `is not 0` is that numeric test); with
`kernel_size = 1` the padding is zero, the output is the untruncated
convolution of the unpadded input, and its time-length equals the input's, so
the slice can never empty the time axis. -/
theorem causal_truncation_guard {ic oc : ℕ} {k d : ℤ} {kw kb} {C : Conv}
    (h : Conv.make ic oc k d true kw kb = some C) :
    (∀ x : Seq, C.padding ≠ 0 →
        C.forward x =
          (C.conv.apply (padSeq C.padding x)).take
            ((C.conv.apply (padSeq C.padding x)).length - C.padding)) ∧
      (∀ x : Seq, C.padding = 0 → C.forward x = C.conv.apply (padSeq C.padding x)) ∧
      (k = 1 → C.padding = 0 ∧
        ∀ x : Seq, C.forward x = C.conv.apply x ∧ (C.forward x).length = x.length) := by
  have hWF := convMake_causalWF h
  have hlen := Conv.forward_causal_length hWF
  have hpad := Conv.make_causal_padding h
  refine ⟨fun x h0 => ?_, fun x h0 => ?_, fun hk1 => ?_⟩
  · unfold Conv.forward
    rw [if_pos ⟨hWF.1, h0⟩]
  · unfold Conv.forward
    rw [if_neg (by simp [h0])]
  · rw [hk1] at hpad
    simp only [Int.toNat_one, Nat.sub_self, Nat.mul_zero] at hpad
    refine ⟨hpad, fun x => ⟨?_, hlen x⟩⟩
    unfold Conv.forward
    rw [if_neg (by simp [hpad]), hpad, padSeq_zero]

/-- C4 counterexample: the non-causal `Conv` with `kernel_size = 2`,
`dilation = 1` (odd `dilation * (kernel_size - 1)`) is constructible, and on
an input of time-length 2 its forward output has time-length 1, not 2. -/
theorem noncausal_conv_length_cex :
    Conv.make 1 1 2 1 false zK zB = some convC4 ∧
      (convC4.forward [[0], [0]]).length = 1 ∧
      (convC4.forward [[0], [0]]).length ≠ 2 :=
  ⟨rfl, by decide, by decide⟩

/-- C4 amended: for a non-causal `Conv`, the output time-length is the input
time-length minus the parity of `dilation * (kernel_size - 1)`: equal when
that product is even, one less when it is odd (for inputs long enough). -/
theorem noncausal_conv_length {ic oc : ℕ} {k d : ℤ} {kw kb} {C : Conv}
    (h : Conv.make ic oc k d false kw kb = some C) (x : Seq)
    (hT : d.toNat * (k.toNat - 1) % 2 ≤ x.length) :
    (C.forward x).length = x.length - d.toNat * (k.toNat - 1) % 2 := by
  obtain ⟨hk, hd, rfl⟩ := convMake_some h
  unfold Conv.forward
  rw [if_neg (by simp)]
  dsimp only
  rw [Conv1D.apply_length, Conv1D.outLen, padSeq_length]
  simp only [Bool.false_eq_true, if_false]
  rw [halfpad_toNat hk hd]
  omega

theorem noncausal_conv_length_witness :
    (convC4.forward [[0], [0]]).length = 2 - 1 % 2 :=
  @noncausal_conv_length 1 1 2 1 zK zB convC4 rfl [[0], [0]] (by decide)

/-- C7 counterexample: constructing the stack with `num_blocks = 0` (a
non-positive group count) succeeds instead of failing. -/
theorem stack_construction_nonpositive_cex :
    (WaveNet.make 1 2 0 6 4 4 (some 4) 3 true wZeroNet).isSome = true := by
  decide

/-- C7 amended: constructing a `Conv` with `kernel_size ≤ 0` or
`dilation ≤ 0` fails (per the spec-modelled validation of the imported
`Conv1D` layer), but constructing a `WaveNet` with `num_blocks ≤ 0` or
`num_layers ≤ 0` succeeds silently, building an empty block list. -/
theorem construction_validation_amended :
    (∀ (ic oc : ℕ) (k d : ℤ) (cs : Bool) (kw : ℕ → ℕ → ℕ → ℚ) (kb : ℕ → ℚ),
        k ≤ 0 ∨ d ≤ 0 → Conv.make ic oc k d cs kw kb = none) ∧
      (∀ (ic oc : ℕ) (nb nl : ℤ) (rc gc : ℕ) (sc : Option ℕ) (ks : ℤ)
          (cs : Bool) (w : WaveNetW), nb ≤ 0 ∨ nl ≤ 0 →
        (WaveNet.make ic oc nb nl rc gc sc ks cs w).map WaveNet.res_blocks
          = some []) := by
  constructor
  · intro ic oc k d cs kw kb hkd
    unfold Conv.make Conv1D.make
    rw [if_pos hkd]
    rfl
  · intro ic oc nb nl rc gc sc ks cs w h
    have hidx : ((List.range nb.toNat).flatMap (fun b =>
        (List.range nl.toNat).map (fun n => (b, n)))) = [] := by
      rcases h with h | h
      · rw [Int.toNat_of_nonpos h]
        rfl
      · rw [Int.toNat_of_nonpos h]
        simp
    unfold WaveNet.make
    rw [hidx]
    simp [Conv.make, Conv1D.make]
    rfl

theorem construction_validation_amended_witness :
    Conv.make 1 1 0 1 true zK zB = none ∧
      (WaveNet.make 1 2 0 6 4 4 (some 4) 3 true wZeroNet).map
        WaveNet.res_blocks = some [] :=
  ⟨construction_validation_amended.1 1 1 0 1 true zK zB (Or.inl (by decide)),
    construction_validation_amended.2 1 2 0 6 4 4 (some 4) 3 true wZeroNet
      (Or.inl (by decide))⟩

theorem zipWith_mul_zero (l : List ℚ) (n : ℕ) :
    List.zipWith (· * ·) (List.replicate n (0 : ℚ)) l
      = List.replicate (min n l.length) 0 := by
  induction l generalizing n with
  | nil => simp
  | cons a l ih =>
    cases n with
    | zero => simp
    | succ m => simp [List.replicate_succ, ih, Nat.succ_min_succ]

theorem mapM_replicate {α β : Type} (f : α → Option β) (z : α) (r : β)
    (h : f z = some r) (n : ℕ) :
    (List.replicate n z).mapM f = some (List.replicate n r) := by
  induction n with
  | zero => rfl
  | succ m ih =>
    rw [List.replicate_succ, List.mapM_cons, h, ih]
    rfl

theorem zeroConv_apply (ic oc : ℕ) (x : Seq) :
    (ZeroConv1d.make ic oc).conv.apply x
      = List.replicate x.length (List.replicate oc 0) := by
  unfold ZeroConv1d.make Conv1D.apply
  dsimp only
  simp [Conv1D.outLen, List.map_const']

/-- C2: immediately after construction `ZeroConv1d.forward` returns the
all-zero tensor of the input's time-length and the configured channel count,
for every input and whatever `exp` is; and since the scale is zero, whenever
`exp 0 = 1` the multiplicative factor is the all-ones vector. -/
theorem zero_init_identity (Pr : Prims) (ic oc : ℕ) (x : Seq) :
    (ZeroConv1d.make ic oc).forward Pr x
        = some (List.replicate x.length (List.replicate oc 0)) ∧
      (Pr.exp 0 = 1 →
        (ZeroConv1d.make ic oc).scaleVec Pr = List.replicate oc 1) := by
  constructor
  · unfold ZeroConv1d.forward
    rw [zeroConv_apply]
    have hlen : ((ZeroConv1d.make ic oc).scaleVec Pr).length = oc := by
      simp [ZeroConv1d.scaleVec, ZeroConv1d.make]
    refine mapM_replicate _ _ _ ?_ x.length
    unfold vecZipB
    rw [if_pos (by simp [hlen])]
    rw [zipWith_mul_zero, hlen]
    simp
  · intro h
    unfold ZeroConv1d.scaleVec ZeroConv1d.make
    dsimp only
    simp [h, List.map_const']

theorem zero_init_identity_witness :
    (ZeroConv1d.make 2 3).forward P1 [[5, 7]] = some [[0, 0, 0]] ∧
      (ZeroConv1d.make 2 3).scaleVec P1 = [1, 1, 1] :=
  ⟨(zero_init_identity P1 2 3 [[5, 7]]).1,
    (zero_init_identity P1 2 3 [[5, 7]]).2 rfl⟩

theorem causal_truncation_guard_witness :
    convC9.padding = 0 ∧ (convC9.forward [[5], [7]]).length = 2 := by
  have h := (@causal_truncation_guard 1 2 1 3 zK zB convC9 rfl).2.2 (Eq.refl 1)
  exact ⟨h.1, (h.2 [[5], [7]]).2⟩

/-! ## Toolbox: `osequence`, `zipWith`, `replicate`, `take` -/

theorem osequence_map_some {α : Type} (r : List α) :
    osequence (r.map some) = some r := by
  induction r with
  | nil => rfl
  | cons x r ih => simp [osequence, ih]

theorem osequence_some_imp {α : Type} :
    ∀ {l : List (Option α)} {r : List α}, osequence l = some r → l = r.map some := by
  intro l
  induction l with
  | nil =>
    intro r h
    obtain rfl : ([] : List α) = r := Option.some.inj h
    rfl
  | cons o l ih =>
    intro r h
    rcases o with - | x
    · simp [osequence] at h
    · rcases hrest : osequence l with - | xs
      · rw [osequence, hrest] at h
        cases h
      · rw [osequence, hrest] at h
        obtain rfl : x :: xs = r := Option.some.inj h
        simp [ih hrest]

theorem osequence_isSome_iff {α : Type} {l : List (Option α)} :
    (osequence l).isSome = true ↔ ∀ o ∈ l, o.isSome = true := by
  induction l with
  | nil => simp [osequence]
  | cons o l ih =>
    rcases o with - | x
    · rcases hrest : osequence l with - | xs <;> simp [osequence, hrest]
    · rcases hrest : osequence l with - | xs <;>
        simp [osequence, hrest, ← ih] <;> simp [hrest]

theorem zipWith_get? {α β γ : Type} (f : α → β → γ) :
    ∀ (a : List α) (b : List β) (i : ℕ),
      (List.zipWith f a b).get? i
        = (a.get? i).bind (fun x => (b.get? i).map (fun y => f x y)) := by
  intro a
  induction a with
  | nil => intro b i; simp
  | cons x a ih =>
    intro b i
    cases b with
    | nil => simp
    | cons y b =>
      cases i with
      | zero => simp
      | succ j => simpa using ih b j

theorem get?_replicate {α : Type} (a : α) (n i : ℕ) :
    (List.replicate n a).get? i = if i < n then some a else none := by
  induction n generalizing i with
  | zero => simp
  | succ m ih =>
    cases i with
    | zero => simp [List.replicate_succ]
    | succ j => simpa [List.replicate_succ, Nat.succ_lt_succ_iff] using ih j

theorem get?_take_eq {α : Type} (l : List α) (n i : ℕ) :
    (l.take n).get? i = if i < n then l.get? i else none := by
  by_cases h : i < n
  · rw [if_pos h, List.get?_take h]
  · rw [if_neg h, List.get?_eq_none]
    have := List.length_take n l
    omega

theorem get?_append_split {α : Type} (l1 l2 : List α) (i : ℕ) :
    (l1 ++ l2).get? i
      = if i < l1.length then l1.get? i else l2.get? (i - l1.length) := by
  by_cases h : i < l1.length
  · rw [if_pos h, List.get?_append h]
  · rw [if_neg h, List.get?_append_right (by omega)]

theorem mapM_eq_osequence {α β : Type} (f : α → Option β) (l : List α) :
    l.mapM f = osequence (l.map f) := by
  induction l with
  | nil => rfl
  | cons a l ih =>
    rw [List.mapM_cons, List.map_cons, osequence, ih]
    rcases f a with - | b <;> rcases osequence (l.map f) with - | r <;> rfl

theorem mapM_some_get? {α β : Type} {f : α → Option β} :
    ∀ {l : List α} {r : List β}, l.mapM f = some r →
      r.length = l.length ∧
        ∀ i, (l.get? i).map f = (r.get? i).map some := by
  intro l r h
  rw [mapM_eq_osequence] at h
  have hmap := osequence_some_imp h
  constructor
  · have := congrArg List.length hmap
    simpa using this.symm
  · intro i
    have := congrArg (fun l => l.get? i) hmap
    simpa [List.get?_map] using this

theorem mapM_mem_source {α β : Type} {f : α → Option β} {l : List α} {r : List β}
    (h : l.mapM f = some r) : ∀ b ∈ r, ∃ a ∈ l, f a = some b := by
  intro b hb
  obtain ⟨hlen, hget⟩ := mapM_some_get? h
  obtain ⟨i, hi⟩ := List.mem_iff_get?.mp hb
  have := hget i
  rw [hi] at this
  rcases hl : l.get? i with - | a
  · rw [hl] at this
    cases this
  · rw [hl] at this
    exact ⟨a, List.mem_iff_get?.mpr ⟨i, hl⟩, Option.some.inj this⟩

theorem bindo_eq {α β : Type} (a : Option α) (f : α → Option β) :
    a >>= f = a.bind f := rfl

theorem pureo_eq {α : Type} (a : α) : (pure a : Option α) = some a := rfl

/-! ## Agreement machinery for the causality property -/

theorem vecZipB_map_length (f : ℚ → ℚ → ℚ) (u v : List ℚ) :
    (vecZipB f u v).map List.length = vecLenB u.length v.length := by
  unfold vecZipB vecLenB
  by_cases h1 : u.length = v.length
  · rw [if_pos h1, if_pos h1]
    simp [List.length_zipWith]
  · rw [if_neg h1, if_neg h1]
    by_cases h2 : u.length = 1
    · rw [if_pos h2, if_pos h2]
      simp
    · rw [if_neg h2, if_neg h2]
      by_cases h3 : v.length = 1
      · rw [if_pos h3, if_pos h3]
        simp
      · rw [if_neg h3, if_neg h3]
        rfl

theorem vecZipB_shape_congr {f g : ℚ → ℚ → ℚ} {u u' v v' : List ℚ}
    (hu : u.length = u'.length) (hv : v.length = v'.length) :
    (vecZipB f u v).isSome = (vecZipB g u' v').isSome ∧
      ∀ r r', vecZipB f u v = some r → vecZipB g u' v' = some r' →
        r.length = r'.length := by
  have h := vecZipB_map_length f u v
  have h' := vecZipB_map_length g u' v'
  rw [hu, hv, ← h'] at h
  constructor
  · have := congrArg Option.isSome h
    simpa using this
  · intro r r' hr hr'
    rw [hr, hr'] at h
    simpa using h

theorem AgreeUpTo.get?_eq_none_iff {t : ℕ} {a b : Seq} (h : AgreeUpTo t a b)
    (i : ℕ) : a.get? i = none ↔ b.get? i = none := by
  rw [List.get?_eq_none, List.get?_eq_none, h.length_eq]

theorem AgreeUpTo.row_length {t : ℕ} {a b : Seq} (h : AgreeUpTo t a b)
    {i : ℕ} {o o' : List ℚ} (h1 : a.get? i = some o) (h2 : b.get? i = some o') :
    o.length = o'.length := by
  have := congrArg (fun s => s.get? i) h.1
  simp only [shape_get?] at this
  rw [h1, h2] at this
  simpa using this

theorem AgreeUpTo.eq_of_short {t : ℕ} {a b : Seq} (h : AgreeUpTo t a b)
    (hlen : a.length ≤ t + 1) : a = b := by
  apply List.ext_get?
  intro n
  by_cases hn : n ≤ t
  · exact h.2 n hn
  · rw [List.get?_eq_none.mpr (by omega),
      List.get?_eq_none.mpr (by rw [← h.length_eq]; omega)]

theorem osequence_OAgree {t : ℕ} {l l' : List (Option (List ℚ))}
    (hlen : l.length = l'.length)
    (hsome : ∀ i o o', l.get? i = some o → l'.get? i = some o' →
      o.isSome = o'.isSome ∧
        ∀ r r', o = some r → o' = some r' → r.length = r'.length)
    (heq : ∀ s, s ≤ t → l.get? s = l'.get? s) :
    OAgreeUpTo t (osequence l) (osequence l') := by
  have hiff : (osequence l).isSome = true ↔ (osequence l').isSome = true := by
    rw [osequence_isSome_iff, osequence_isSome_iff]
    constructor
    · intro hall o' ho'
      obtain ⟨i, hi⟩ := List.mem_iff_get?.mp ho'
      rcases hl : l.get? i with - | o
      · rw [List.get?_eq_none] at hl
        have : i < l'.length := by
          by_contra hc
          rw [List.get?_eq_none.mpr (by omega)] at hi
          cases hi
        omega
      · have := (hsome i o o' hl hi).1
        rw [← this]
        exact hall o (List.mem_iff_get?.mpr ⟨i, hl⟩)
    · intro hall o ho
      obtain ⟨i, hi⟩ := List.mem_iff_get?.mp ho
      rcases hl : l'.get? i with - | o'
      · rw [List.get?_eq_none] at hl
        have : i < l.length := by
          by_contra hc
          rw [List.get?_eq_none.mpr (by omega)] at hi
          cases hi
        omega
      · have := (hsome i o o' hi hl).1
        rw [this]
        exact hall o' (List.mem_iff_get?.mpr ⟨i, hl⟩)
  rcases h1 : osequence l with - | r <;> rcases h2 : osequence l' with - | r'
  · trivial
  · rw [h1, h2] at hiff
    simp at hiff
  · rw [h1, h2] at hiff
    simp at hiff
  · have hl := osequence_some_imp h1
    have hl' := osequence_some_imp h2
    have hrlen : r.length = l.length := by
      have := congrArg List.length hl
      simpa using this.symm
    have hrlen' : r'.length = l'.length := by
      have := congrArg List.length hl'
      simpa using this.symm
    constructor
    · apply List.ext_get?
      intro i
      rw [shape_get?, shape_get?]
      have e1 := congrArg (fun s => s.get? i) hl
      have e2 := congrArg (fun s => s.get? i) hl'
      simp only [List.get?_map] at e1 e2
      rcases hr : r.get? i with - | ri <;> rcases hr' : r'.get? i with - | ri'
      · simp
      · exfalso
        rw [List.get?_eq_none] at hr
        have : i < r'.length := by
          by_contra hc
          rw [List.get?_eq_none.mpr (by omega)] at hr'
          cases hr'
        omega
      · exfalso
        rw [List.get?_eq_none] at hr'
        have : i < r.length := by
          by_contra hc
          rw [List.get?_eq_none.mpr (by omega)] at hr
          cases hr
        omega
      · have h3 : l.get? i = some (some ri) := by rw [e1, hr]; rfl
        have h4 : l'.get? i = some (some ri') := by rw [e2, hr']; rfl
        have := (hsome i _ _ h3 h4).2 ri ri' rfl rfl
        simp [this]
    · intro s hs
      have e1 := congrArg (fun u => u.get? s) hl
      have e2 := congrArg (fun u => u.get? s) hl'
      simp only [List.get?_map] at e1 e2
      have h5 := heq s hs
      rw [e1, e2] at h5
      rcases hr : r.get? s with - | ri <;> rcases hr' : r'.get? s with - | ri' <;>
        rw [hr, hr'] at h5
      · exact absurd h5 (by simp)
      · exact absurd h5 (by simp)
      · simpa using h5

theorem seqZipB_map_OAgree (f : ℚ → ℚ → ℚ) {t : ℕ} {b b' : Seq} (u : List ℚ)
    (hb : AgreeUpTo t b b') :
    OAgreeUpTo t (osequence (b.map (fun v => vecZipB f u v)))
      (osequence (b'.map (fun v => vecZipB f u v))) := by
  apply osequence_OAgree
  · simp [hb.length_eq]
  · intro i o o' ho ho'
    rw [List.get?_map] at ho ho'
    rcases hbi : b.get? i with - | v
    · rw [hbi] at ho
      cases ho
    · rcases hbi' : b'.get? i with - | v'
      · rw [hbi'] at ho'
        cases ho'
      · rw [hbi] at ho
        rw [hbi'] at ho'
        obtain rfl := Option.some.inj ho
        obtain rfl := Option.some.inj ho'
        exact vecZipB_shape_congr rfl (hb.row_length hbi hbi')
  · intro s hs
    rw [List.get?_map, List.get?_map, hb.2 s hs]

theorem seqZipB_mapr_OAgree (f : ℚ → ℚ → ℚ) {t : ℕ} {a a' : Seq} (v : List ℚ)
    (ha : AgreeUpTo t a a') :
    OAgreeUpTo t (osequence (a.map (fun u => vecZipB f u v)))
      (osequence (a'.map (fun u => vecZipB f u v))) := by
  apply osequence_OAgree
  · simp [ha.length_eq]
  · intro i o o' ho ho'
    rw [List.get?_map] at ho ho'
    rcases hai : a.get? i with - | u
    · rw [hai] at ho
      cases ho
    · rcases hai' : a'.get? i with - | u'
      · rw [hai'] at ho'
        cases ho'
      · rw [hai] at ho
        rw [hai'] at ho'
        obtain rfl := Option.some.inj ho
        obtain rfl := Option.some.inj ho'
        exact vecZipB_shape_congr (ha.row_length hai hai') rfl
  · intro s hs
    rw [List.get?_map, List.get?_map, ha.2 s hs]

theorem seqZipB_agree (f : ℚ → ℚ → ℚ) {t : ℕ} {a a' b b' : Seq}
    (ha : AgreeUpTo t a a') (hb : AgreeUpTo t b b') :
    OAgreeUpTo t (seqZipB f a b) (seqZipB f a' b') := by
  have hal : a.length = a'.length := ha.length_eq
  have hbl : b.length = b'.length := hb.length_eq
  unfold seqZipB
  by_cases h1 : a.length = b.length
  · rw [if_pos h1, if_pos (show a'.length = b'.length by omega)]
    apply osequence_OAgree
    · simp only [List.length_zipWith]
      omega
    · intro i o o' ho ho'
      rw [zipWith_get?] at ho ho'
      rcases hai : a.get? i with - | u
      · rw [hai] at ho
        cases ho
      rcases hbi : b.get? i with - | v
      · rw [hai, hbi] at ho
        cases ho
      rcases hai' : a'.get? i with - | u'
      · rw [hai'] at ho'
        cases ho'
      rcases hbi' : b'.get? i with - | v'
      · rw [hai', hbi'] at ho'
        cases ho'
      rw [hai, hbi] at ho
      rw [hai', hbi'] at ho'
      obtain rfl := Option.some.inj ho
      obtain rfl := Option.some.inj ho'
      exact vecZipB_shape_congr (ha.row_length hai hai') (hb.row_length hbi hbi')
    · intro s hs
      rw [zipWith_get?, zipWith_get?, ha.2 s hs, hb.2 s hs]
  · rw [if_neg h1, if_neg (show ¬a'.length = b'.length by omega)]
    by_cases h2 : a.length = 1
    · rw [if_pos h2, if_pos (show a'.length = 1 by omega)]
      obtain rfl : a = a' := ha.eq_of_short (by omega)
      exact seqZipB_map_OAgree f (a.headD []) hb
    · rw [if_neg h2, if_neg (show ¬a'.length = 1 by omega)]
      by_cases h3 : b.length = 1
      · rw [if_pos h3, if_pos (show b'.length = 1 by omega)]
        obtain rfl : b = b' := hb.eq_of_short (by omega)
        exact seqZipB_mapr_OAgree f (b.headD []) ha
      · rw [if_neg h3, if_neg (show ¬b'.length = 1 by omega)]
        trivial

theorem shape_seqMap (f : ℚ → ℚ) (s : Seq) : shape (seqMap f s) = shape s := by
  unfold shape seqMap
  rw [List.map_map]
  exact List.map_congr_left (fun v _ => by simp)

theorem seqMap_agree (f : ℚ → ℚ) {t : ℕ} {a b : Seq} (h : AgreeUpTo t a b) :
    AgreeUpTo t (seqMap f a) (seqMap f b) := by
  refine ⟨by rw [shape_seqMap, shape_seqMap, h.1], fun s hs => ?_⟩
  unfold seqMap
  rw [List.get?_map, List.get?_map, h.2 s hs]

theorem seqScale_eq_seqMap (s : Seq) (r : ℚ) :
    seqScale s r = seqMap (fun z => z * r) s := rfl

theorem entry_congr {x y : Seq} {j : ℕ} (h : x.get? j = y.get? j) (c : ℕ) :
    entry x j c = entry y j c := by
  unfold entry
  rw [h]

theorem padSeq_shape (P : ℕ) (x : Seq) :
    shape (padSeq P x)
      = List.replicate P (seqWidth x) ++ shape x ++
          List.replicate P (seqWidth x) := by
  unfold padSeq shape
  simp [List.map_append, List.map_replicate]

theorem padSeq_get? (P : ℕ) (x : Seq) (s : ℕ) :
    (padSeq P x).get? s =
      if s < P then some (List.replicate (seqWidth x) 0)
      else if s < P + x.length then x.get? (s - P)
      else if s < P + x.length + P then some (List.replicate (seqWidth x) 0)
      else none := by
  unfold padSeq
  rw [get?_append_split, get?_append_split]
  simp only [List.length_append, List.length_replicate]
  by_cases h1 : s < P
  · rw [if_pos (show s < P + x.length by omega), if_pos h1, if_pos h1,
      get?_replicate, if_pos h1]
  · by_cases h2 : s < P + x.length
    · rw [if_pos h2, if_neg h1, if_neg h1, if_pos h2]
    · rw [if_neg h2, if_neg h1, if_neg h2, get?_replicate]
      by_cases h3 : s < P + x.length + P
      · rw [if_pos (show s - (P + x.length) < P by omega), if_pos h3]
      · rw [if_neg (show ¬s - (P + x.length) < P by omega), if_neg h3]

theorem padSeq_agree (P : ℕ) {t : ℕ} {x y : Seq} (h : AgreeUpTo t x y) :
    AgreeUpTo (t + P) (padSeq P x) (padSeq P y) := by
  have hw : seqWidth x = seqWidth y := seqWidth_eq_of_shape h.1
  have hlen : x.length = y.length := h.length_eq
  constructor
  · rw [padSeq_shape, padSeq_shape, hw, h.1]
  · intro s hs
    rw [padSeq_get?, padSeq_get?, hw, hlen]
    by_cases h1 : s < P
    · rw [if_pos h1, if_pos h1]
    · rw [if_neg h1, if_neg h1]
      by_cases h2 : s < P + y.length
      · rw [if_pos h2, if_pos h2, h.2 (s - P) (by omega)]
      · rw [if_neg h2, if_neg h2]

theorem AgreeUpTo.take {t : ℕ} {a b : Seq} (h : AgreeUpTo t a b) (n : ℕ) :
    AgreeUpTo t (a.take n) (b.take n) := by
  constructor
  · have h1 := h.1
    unfold shape at h1 ⊢
    rw [List.map_take, List.map_take]
    exact congrArg (List.take n) h1
  · intro s hs
    rw [get?_take_eq, get?_take_eq, h.2 s hs]

theorem Conv1D.apply_agree (L : Conv1D) {t : ℕ} {x y : Seq}
    (h : AgreeUpTo (t + L.dilation * (L.kernel_size - 1)) x y) :
    AgreeUpTo t (L.apply x) (L.apply y) := by
  have hlen : x.length = y.length := h.length_eq
  have hw : seqWidth x = seqWidth y := seqWidth_eq_of_shape h.1
  constructor
  · rw [Conv1D.apply_shape, Conv1D.apply_shape, hlen]
  · intro s hs
    unfold Conv1D.apply
    rw [List.get?_map, List.get?_map, hlen]
    by_cases hlt : s < L.outLen y.length
    · rw [List.get?_range hlt]
      simp only [Option.map_some']
      congr 1
      apply List.map_congr_left
      intro o _ho
      congr 1
      apply Finset.sum_congr rfl
      intro i hi
      rw [hw]
      apply Finset.sum_congr rfl
      intro c _hc
      rw [Finset.mem_range] at hi
      have h6 : i * L.dilation ≤ L.dilation * (L.kernel_size - 1) := by
        rw [Nat.mul_comm]
        exact Nat.mul_le_mul_left _ (by omega)
      rw [entry_congr (h.2 (s + i * L.dilation) (by omega)) c]
    · have hn : (List.range (L.outLen y.length)).get? s = none := by
        rw [List.get?_eq_none]
        simp only [List.length_range]
        omega
      rw [hn]
      rfl

theorem convForward_agree {C : Conv} (hC : C.CausalWF) {t : ℕ} {x y : Seq}
    (h : AgreeUpTo t x y) : AgreeUpTo t (C.forward x) (C.forward y) := by
  rw [Conv.forward_causal_eq hC, Conv.forward_causal_eq hC, h.length_eq]
  apply AgreeUpTo.take
  apply Conv1D.apply_agree
  rw [← hC.2]
  exact padSeq_agree C.padding h

theorem Conv1D.apply_agree_pointwise {L : Conv1D} (hL : L.pointwise) {t : ℕ}
    {x y : Seq} (h : AgreeUpTo t x y) : AgreeUpTo t (L.apply x) (L.apply y) := by
  apply Conv1D.apply_agree
  unfold Conv1D.pointwise at hL
  rw [hL, Nat.add_zero]
  exact h

theorem zeroConvForward_agree {Z : ZeroConv1d} (hZ : Z.conv.pointwise)
    (Pr : Prims) {t : ℕ} {x y : Seq} (h : AgreeUpTo t x y) :
    OAgreeUpTo t (Z.forward Pr x) (Z.forward Pr y) := by
  unfold ZeroConv1d.forward
  rw [mapM_eq_osequence, mapM_eq_osequence]
  exact seqZipB_mapr_OAgree (· * ·) (Z.scaleVec Pr)
    (Conv1D.apply_agree_pointwise hZ h)

theorem oagreeUpTo_elim {t : ℕ} {a b : Option Seq} (h : OAgreeUpTo t a b) :
    (a = none ∧ b = none) ∨
      ∃ u v, a = some u ∧ b = some v ∧ AgreeUpTo t u v := by
  cases a <;> cases b <;> simp_all [OAgreeUpTo]

theorem pairAgree_elim {t : ℕ} {p q : Option (Seq × Option Seq)}
    (h : PairAgree t p q) :
    (p = none ∧ q = none) ∨
      ∃ s1 k1 s2 k2, p = some (s1, k1) ∧ q = some (s2, k2) ∧
        AgreeUpTo t s1 s2 ∧ OAgreeUpTo t k1 k2 := by
  rcases p with - | ⟨s1, k1⟩ <;> rcases q with - | ⟨s2, k2⟩
  · exact Or.inl ⟨rfl, rfl⟩
  · exact absurd h (by simp [PairAgree])
  · exact absurd h (by simp [PairAgree])
  · exact Or.inr ⟨s1, k1, s2, k2, rfl, rfl, h.1, h.2⟩

theorem ResBlock.tail_agree {B : ResBlock} (hres : B.res_conv.pointwise)
    (hskip : ∀ L, B.skip_conv = some L → L.pointwise) (Pr : Prims) {t : ℕ}
    {x y hfx hfy hgx hgy : Seq} (hx : AgreeUpTo t x y)
    (hhf : AgreeUpTo t hfx hfy) (hhg : AgreeUpTo t hgx hgy) :
    PairAgree t
      ((seqMul (seqMap Pr.tanh hfx) (seqMap Pr.sigmoid hgx)).bind (fun out =>
        (seqAdd x (B.res_conv.apply out)).bind (fun str =>
          some (seqScale str Pr.sqrtHalf,
            B.skip_conv.map (fun sc => sc.apply out)))))
      ((seqMul (seqMap Pr.tanh hfy) (seqMap Pr.sigmoid hgy)).bind (fun out =>
        (seqAdd y (B.res_conv.apply out)).bind (fun str =>
          some (seqScale str Pr.sqrtHalf,
            B.skip_conv.map (fun sc => sc.apply out))))) := by
  have hmul : OAgreeUpTo t
      (seqMul (seqMap Pr.tanh hfx) (seqMap Pr.sigmoid hgx))
      (seqMul (seqMap Pr.tanh hfy) (seqMap Pr.sigmoid hgy)) :=
    seqZipB_agree (· * ·) (seqMap_agree _ hhf) (seqMap_agree _ hhg)
  rcases oagreeUpTo_elim hmul with ⟨e1, e2⟩ | ⟨out, out', e1, e2, hout⟩
  · rw [e1, e2]
    simp [PairAgree]
  · rw [e1, e2]
    simp only [Option.some_bind]
    have hresag : AgreeUpTo t (B.res_conv.apply out) (B.res_conv.apply out') :=
      Conv1D.apply_agree_pointwise hres hout
    have hadd : OAgreeUpTo t (seqAdd x (B.res_conv.apply out))
        (seqAdd y (B.res_conv.apply out')) := seqZipB_agree (· + ·) hx hresag
    rcases oagreeUpTo_elim hadd with ⟨e3, e4⟩ | ⟨str, str', e3, e4, hstr⟩
    · rw [e3, e4]
      simp [PairAgree]
    · rw [e3, e4]
      simp only [Option.some_bind]
      refine ⟨?_, ?_⟩
      · rw [seqScale_eq_seqMap, seqScale_eq_seqMap]
        exact seqMap_agree _ hstr
      · rcases hsk : B.skip_conv with - | L
        · trivial

        · simp only [Option.map_some']
          exact Conv1D.apply_agree_pointwise (hskip L hsk) hout

theorem resBlockForward_agree {B : ResBlock} (hB : B.CausalWF) (Pr : Prims)
    (c : Option Seq) {t : ℕ} {x y : Seq} (h : AgreeUpTo t x y) :
    PairAgree t (B.forward Pr x c) (B.forward Pr y c) := by
  obtain ⟨hfc, hgc, hres, hskip, hcond⟩ := hB
  have hf0 := convForward_agree hfc h
  have hg0 := convForward_agree hgc h
  unfold ResBlock.forward
  rcases hcc : B.cond_convs with - | fg
  · simp only [bindo_eq, pureo_eq, Option.some_bind]
    exact ResBlock.tail_agree hres hskip Pr h hf0 hg0
  · rcases c with - | cv
    · simp [PairAgree, bindo_eq, pureo_eq]
    · simp only [bindo_eq, pureo_eq, Option.some_bind]
      have hfadd : OAgreeUpTo t
          (seqAdd (B.filter_conv.forward x) (fg.1.apply cv))
          (seqAdd (B.filter_conv.forward y) (fg.1.apply cv)) :=
        seqZipB_agree (· + ·) hf0 AgreeUpTo.rfl
      rcases oagreeUpTo_elim hfadd with ⟨e1, e2⟩ | ⟨hfv, hfv', e1, e2, hhf⟩
      · rw [e1, e2]
        simp [PairAgree]
      · rw [e1, e2]
        simp only [Option.some_bind]
        have hgadd : OAgreeUpTo t
            (seqAdd (B.gate_conv.forward x) (fg.2.apply cv))
            (seqAdd (B.gate_conv.forward y) (fg.2.apply cv)) :=
          seqZipB_agree (· + ·) hg0 AgreeUpTo.rfl
        rcases oagreeUpTo_elim hgadd with ⟨e3, e4⟩ | ⟨hgv, hgv', e3, e4, hhg⟩
        · rw [e3, e4]
          simp [PairAgree]
        · rw [e3, e4]
          simp only [Option.some_bind]
          exact ResBlock.tail_agree hres hskip Pr h hhf hhg

theorem stateAgree_elim {t : ℕ} {p q : Option (Seq × List (Option Seq))}
    (h : StateAgree t p q) :
    (p = none ∧ q = none) ∨
      ∃ s1 k1 s2 k2, p = some (s1, k1) ∧ q = some (s2, k2) ∧
        AgreeUpTo t s1 s2 ∧ SkipsAgree t k1 k2 := by
  rcases p with - | ⟨s1, k1⟩ <;> rcases q with - | ⟨s2, k2⟩
  · exact Or.inl ⟨rfl, rfl⟩
  · exact absurd h (by simp [StateAgree])
  · exact absurd h (by simp [StateAgree])
  · exact Or.inr ⟨s1, k1, s2, k2, rfl, rfl, h.1, h.2⟩

theorem foldl_blocks_agree (Pr : Prims) (c : Option Seq) (skipFlag : Bool)
    {t : ℕ} :
    ∀ (bs : List ResBlock), (∀ B ∈ bs, B.CausalWF) →
      ∀ {h1 h2 : Seq} {sk1 sk2 : List (Option Seq)},
        AgreeUpTo t h1 h2 → SkipsAgree t sk1 sk2 →
        StateAgree t
          (bs.foldlM (fun acc B => do
            let (s, sk) ← B.forward Pr acc.1 c
            if skipFlag then pure (s, acc.2 ++ [sk]) else pure (s, acc.2))
            (h1, sk1))
          (bs.foldlM (fun acc B => do
            let (s, sk) ← B.forward Pr acc.1 c
            if skipFlag then pure (s, acc.2 ++ [sk]) else pure (s, acc.2))
            (h2, sk2)) := by
  intro bs
  induction bs with
  | nil =>
    intro _ h1 h2 sk1 sk2 hh hsk
    rw [List.foldlM_nil, List.foldlM_nil]
    exact ⟨hh, hsk⟩
  | cons B bs ih =>
    intro hwf h1 h2 sk1 sk2 hh hsk
    rw [List.foldlM_cons, List.foldlM_cons]
    simp only [bindo_eq, pureo_eq]
    have hstep := resBlockForward_agree (hwf B (by simp)) Pr c hh
    rcases pairAgree_elim hstep with ⟨e1, e2⟩ | ⟨s1, k1, s2, k2, e1, e2, hs, hk⟩
    · rw [e1, e2]
      simp [StateAgree]
    · rw [e1, e2]
      simp only [Option.some_bind]
      have hrest : ∀ B ∈ bs, B.CausalWF := fun b hb => hwf b (by simp [hb])
      cases skipFlag with
      | false =>
        simp only [Bool.false_eq_true, if_false, Option.some_bind]
        have := ih hrest hs hsk
        simpa [bindo_eq, pureo_eq] using this
      | true =>
        simp only [if_true, Option.some_bind]
        have := ih hrest hs (List.rel_append hsk
          (List.Forall₂.cons hk List.Forall₂.nil))
        simpa [bindo_eq, pureo_eq] using this

theorem vecAddStrict_map_length (u v : List ℚ) :
    (vecAddStrict u v).map List.length
      = if u.length = v.length then some (min u.length v.length) else none := by
  unfold vecAddStrict
  by_cases h : u.length = v.length
  · rw [if_pos h, if_pos h]
    simp [List.length_zipWith]
  · rw [if_neg h, if_neg h]
    rfl

theorem vecAddStrict_shape_congr {u u' v v' : List ℚ}
    (hu : u.length = u'.length) (hv : v.length = v'.length) :
    (vecAddStrict u v).isSome = (vecAddStrict u' v').isSome ∧
      ∀ r r', vecAddStrict u v = some r → vecAddStrict u' v' = some r' →
        r.length = r'.length := by
  have h := vecAddStrict_map_length u v
  have h' := vecAddStrict_map_length u' v'
  rw [hu, hv, ← h'] at h
  constructor
  · have := congrArg Option.isSome h
    simpa using this
  · intro r r' hr hr'
    rw [hr, hr'] at h
    simpa using h

theorem seqAddStrict_agree {t : ℕ} {a a' b b' : Seq} (ha : AgreeUpTo t a a')
    (hb : AgreeUpTo t b b') :
    OAgreeUpTo t (seqAddStrict a b) (seqAddStrict a' b') := by
  have hal : a.length = a'.length := ha.length_eq
  have hbl : b.length = b'.length := hb.length_eq
  unfold seqAddStrict
  by_cases h1 : a.length = b.length
  · rw [if_pos h1, if_pos (show a'.length = b'.length by omega)]
    apply osequence_OAgree
    · simp only [List.length_zipWith]
      omega
    · intro i o o' ho ho'
      rw [zipWith_get?] at ho ho'
      rcases hai : a.get? i with - | u
      · rw [hai] at ho
        cases ho
      rcases hbi : b.get? i with - | v
      · rw [hai, hbi] at ho
        cases ho
      rcases hai' : a'.get? i with - | u'
      · rw [hai'] at ho'
        cases ho'
      rcases hbi' : b'.get? i with - | v'
      · rw [hai', hbi'] at ho'
        cases ho'
      rw [hai, hbi] at ho
      rw [hai', hbi'] at ho'
      obtain rfl := Option.some.inj ho
      obtain rfl := Option.some.inj ho'
      exact vecAddStrict_shape_congr (ha.row_length hai hai') (hb.row_length hbi hbi')
    · intro s hs
      rw [zipWith_get?, zipWith_get?, ha.2 s hs, hb.2 s hs]
  · rw [if_neg h1, if_neg (show ¬a'.length = b'.length by omega)]
    trivial

theorem foldlM_strict_agree {t : ℕ} :
    ∀ {l l' : List Seq}, List.Forall₂ (AgreeUpTo t) l l' →
      ∀ {acc acc' : Seq}, AgreeUpTo t acc acc' →
        OAgreeUpTo t (l.foldlM seqAddStrict acc) (l'.foldlM seqAddStrict acc') := by
  intro l l' h
  induction h with
  | nil =>
    intro acc acc' ha
    rw [List.foldlM_nil, List.foldlM_nil]
    exact ha
  | @cons a b as bs hab hrest ih =>
    intro acc acc' ha
    rw [List.foldlM_cons, List.foldlM_cons]
    have hstep := seqAddStrict_agree ha hab
    rcases oagreeUpTo_elim hstep with ⟨e1, e2⟩ | ⟨u, v, e1, e2, huv⟩
    · rw [e1, e2]
      trivial
    · rw [e1, e2]
      simp only [bindo_eq, Option.some_bind]
      exact ih huv

theorem addN_agree {t : ℕ} {l l' : List Seq}
    (h : List.Forall₂ (AgreeUpTo t) l l') :
    OAgreeUpTo t (addN l) (addN l') := by
  cases h with
  | nil => trivial
  | cons hab hrest => exact foldlM_strict_agree hrest hab

theorem mapM_id_agree {t : ℕ} :
    ∀ {l l' : List (Option Seq)}, SkipsAgree t l l' →
      (l.mapM id = none ∧ l'.mapM id = none) ∨
        ∃ r r', l.mapM id = some r ∧ l'.mapM id = some r' ∧
          List.Forall₂ (AgreeUpTo t) r r' := by
  intro l l' h
  induction h with
  | nil => exact Or.inr ⟨[], [], rfl, rfl, List.Forall₂.nil⟩
  | @cons a b as bs hab hrest ih =>
    rw [show (a :: as).mapM id = a.bind (fun x => (as.mapM id).map (fun xs => x :: xs)) from
      by rw [mapM_eq_osequence, mapM_eq_osequence, List.map_id, List.map_id]; rfl]
    rw [show (b :: bs).mapM id = b.bind (fun x => (bs.mapM id).map (fun xs => x :: xs)) from
      by rw [mapM_eq_osequence, mapM_eq_osequence, List.map_id, List.map_id]; rfl]
    rcases oagreeUpTo_elim hab with ⟨e1, e2⟩ | ⟨u, v, e1, e2, huv⟩
    · rw [e1, e2]
      exact Or.inl ⟨rfl, rfl⟩
    · rw [e1, e2]
      simp only [Option.some_bind]
      rcases ih with ⟨e3, e4⟩ | ⟨r, r', e3, e4, hrr⟩
      · rw [e3, e4]
        exact Or.inl ⟨rfl, rfl⟩
      · rw [e3, e4]
        exact Or.inr ⟨u :: r, v :: r', rfl, rfl, List.Forall₂.cons huv hrr⟩

theorem waveNetForward_agree {W : WaveNet} (hW : W.CausalWF) (Pr : Prims)
    (c : Option Seq) {t : ℕ} {x y : Seq} (h : AgreeUpTo t x y) :
    OAgreeUpTo t (W.forward Pr x c) (W.forward Pr y c) := by
  obtain ⟨hfront, hblocks, hfinal, hzero⟩ := hW
  have h0 : AgreeUpTo t (seqMap relu (W.front_conv.forward x))
      (seqMap relu (W.front_conv.forward y)) :=
    seqMap_agree _ (convForward_agree hfront h)
  have hfold := foldl_blocks_agree Pr c W.skip W.res_blocks hblocks h0
    (List.Forall₂.nil)
  unfold WaveNet.forward
  dsimp only
  simp only [bindo_eq, pureo_eq]
  dsimp only at hfold
  simp only [bindo_eq, pureo_eq] at hfold
  rcases stateAgree_elim hfold with ⟨e1, e2⟩ | ⟨s1, k1, s2, k2, e1, e2, hs, hk⟩
  · rw [e1, e2]
    trivial
  · rw [e1, e2]
    simp only [Option.some_bind]
    cases hskip : W.skip with
    | false =>
      simp only [Bool.false_eq_true, if_false]
      exact zeroConvForward_agree hzero Pr
        (seqMap_agree relu (convForward_agree hfinal (seqMap_agree relu hs)))
    | true =>
      simp only [if_true]
      rcases mapM_id_agree hk with ⟨e3, e4⟩ | ⟨r, r', e3, e4, hrr⟩
      · rw [e3, e4]
        trivial
      · rw [e3, e4]
        simp only [Option.some_bind]
        rcases oagreeUpTo_elim (addN_agree hrr) with ⟨e5, e6⟩ | ⟨u, v, e5, e6, huv⟩
        · rw [e5, e6]
          trivial
        · rw [e5, e6]
          simp only [Option.some_bind]
          exact zeroConvForward_agree hzero Pr
            (seqMap_agree relu (convForward_agree hfinal (seqMap_agree relu huv)))

/-! ## Construction bridges and the causality claim -/

theorem resBlockMake_some {ic oc : ℕ} {sc : Option ℕ} {k d : ℤ} {lc cs : Bool}
    {w : ResBlockW} {B : ResBlock}
    (h : ResBlock.make ic oc sc k d lc cs w = some B) :
    ∃ fc gc, Conv.make ic oc k d cs w.filterK w.filterB = some fc ∧
      Conv.make ic oc k d cs w.gateK w.gateB = some gc ∧
      B = ⟨cs, fc, gc, ⟨oc, 1, 1, w.resK, w.resB⟩,
        sc.map (fun s => ⟨s, 1, 1, w.skipK, w.skipB⟩),
        if lc then some (⟨oc, 1, 1, w.condFK, w.condFB⟩,
          ⟨oc, 1, 1, w.condGK, w.condGB⟩) else none⟩ := by
  unfold ResBlock.make at h
  rw [Option.bind_eq_some] at h
  obtain ⟨fc, hfc, h⟩ := h
  rw [Option.map_eq_some'] at h
  obtain ⟨gc, hgc, hB⟩ := h
  exact ⟨fc, gc, hfc, hgc, hB.symm⟩

theorem resBlockMake_causalWF {ic oc : ℕ} {sc : Option ℕ} {k d : ℤ} {lc : Bool}
    {w : ResBlockW} {B : ResBlock}
    (h : ResBlock.make ic oc sc k d lc true w = some B) : B.CausalWF := by
  obtain ⟨fc, gc, hfc, hgc, rfl⟩ := resBlockMake_some h
  refine ⟨convMake_causalWF hfc, convMake_causalWF hgc, rfl, ?_, ?_⟩
  · intro L hL
    rcases sc with - | s
    · cases hL
    · obtain rfl := Option.some.inj hL
      rfl
  · intro fg hfg
    cases lc with
    | false => cases hfg
    | true =>
      obtain rfl := Option.some.inj hfg
      exact ⟨rfl, rfl⟩

theorem waveNetMake_some {ic oc : ℕ} {nb nl : ℤ} {rc gc : ℕ} {sc : Option ℕ}
    {ks : ℤ} {cs : Bool} {w : WaveNetW} {W : WaveNet}
    (h : WaveNet.make ic oc nb nl rc gc sc ks cs w = some W) :
    ∃ front blocks final,
      Conv.make ic rc 3 1 cs w.frontK w.frontB = some front ∧
      ((List.range nb.toNat).flatMap (fun b =>
          (List.range nl.toNat).map (fun n => (b, n)))).mapM
        (fun bn => ResBlock.make rc gc sc ks (ks ^ bn.2) true cs
          (w.blockW bn.1 bn.2)) = some blocks ∧
      Conv.make (sc.getD rc) (sc.getD rc) 1 1 cs w.finalK w.finalB = some final ∧
      W = ⟨sc.isSome, front, blocks, final,
        ZeroConv1d.make (sc.getD rc) oc⟩ := by
  unfold WaveNet.make at h
  simp only [bindo_eq, pureo_eq, Option.bind_eq_some] at h
  obtain ⟨front, hfront, blocks, hblocks, final, hfinal, hW⟩ := h
  exact ⟨front, blocks, final, hfront, hblocks, hfinal,
    (Option.some.inj hW).symm⟩

theorem waveNetMake_causalWF {ic oc : ℕ} {nb nl : ℤ} {rc gc : ℕ}
    {sc : Option ℕ} {ks : ℤ} {w : WaveNetW} {W : WaveNet}
    (h : WaveNet.make ic oc nb nl rc gc sc ks true w = some W) : W.CausalWF := by
  obtain ⟨front, blocks, final, hfront, hblocks, hfinal, rfl⟩ := waveNetMake_some h
  refine ⟨convMake_causalWF hfront, ?_, convMake_causalWF hfinal, rfl⟩
  intro B hB
  obtain ⟨bn, -, hmk⟩ := mapM_mem_source hblocks B hB
  exact resBlockMake_causalWF hmk

/-- C1: every causally configured component is temporally causal: for a
`Conv`, `ResBlock`, or `WaveNet` built with `causal = true`, two inputs of
the same shape that agree at all time indices `≤ t` yield outputs (streams
and skip contributions alike) that agree at time index `t`, for every valid
`t` — so changing the input at any index `> t` leaves the output at `t`
unchanged. -/
theorem causal_outputs_agree :
    (∀ (ic oc : ℕ) (k d : ℤ) (kw : ℕ → ℕ → ℕ → ℚ) (kb : ℕ → ℚ) (C : Conv),
        Conv.make ic oc k d true kw kb = some C →
        ∀ (t : ℕ) (x y : Seq), AgreeUpTo t x y →
          AgreeUpTo t (C.forward x) (C.forward y)) ∧
      (∀ (ic oc : ℕ) (sc : Option ℕ) (k d : ℤ) (lc : Bool) (w : ResBlockW)
          (B : ResBlock), ResBlock.make ic oc sc k d lc true w = some B →
        ∀ (Pr : Prims) (c : Option Seq) (t : ℕ) (x y : Seq), AgreeUpTo t x y →
          PairAgree t (B.forward Pr x c) (B.forward Pr y c)) ∧
      (∀ (ic oc : ℕ) (nb nl : ℤ) (rc gc : ℕ) (sc : Option ℕ) (ks : ℤ)
          (w : WaveNetW) (W : WaveNet),
        WaveNet.make ic oc nb nl rc gc sc ks true w = some W →
        ∀ (Pr : Prims) (c : Option Seq) (t : ℕ) (x y : Seq), AgreeUpTo t x y →
          OAgreeUpTo t (W.forward Pr x c) (W.forward Pr y c)) := by
  refine ⟨?_, ?_, ?_⟩
  · intro ic oc k d kw kb C h t x y hxy
    exact convForward_agree (convMake_causalWF h) hxy
  · intro ic oc sc k d lc w B h Pr c t x y hxy
    exact resBlockForward_agree (resBlockMake_causalWF h) Pr c hxy
  · intro ic oc nb nl rc gc sc ks w W h Pr c t x y hxy
    exact waveNetForward_agree (waveNetMake_causalWF h) Pr c hxy

set_option maxHeartbeats 2000000 in
theorem wnetC6_make :
    WaveNet.make 1 1 1 2 1 1 (some 1) 2 true wZeroNet = some wnetC6 := rfl

theorem rbC5_make :
    ResBlock.make 1 1 (some 1) 1 1 true true wZeroRB = some rbC5 := rfl

theorem rbC10_make :
    ResBlock.make 2 1 none 1 1 false true wZeroRB = some rbC10 := rfl

set_option maxHeartbeats 1000000 in
theorem causal_outputs_agree_witness :
    AgreeUpTo 0 (convC3.forward [[1], [2]]) (convC3.forward [[1], [3]]) ∧
      PairAgree 0 (rbC5.forward P1 [[1], [2]] (some [[2], [2]]))
        (rbC5.forward P1 [[1], [3]] (some [[2], [2]])) ∧
      OAgreeUpTo 0 (wnetC6.forward P1 [[1], [2]] (some [[2], [2]]))
        (wnetC6.forward P1 [[1], [3]] (some [[2], [2]])) := by
  have hxy : AgreeUpTo 0 [[1], [2]] [[1], [3]] := by
    refine ⟨rfl, fun s hs => ?_⟩
    have h0 : s = 0 := Nat.le_zero.mp hs
    subst h0
    rfl
  exact ⟨causal_outputs_agree.1 1 2 3 2 zK zB convC3 rfl 0 _ _ hxy,
    causal_outputs_agree.2.1 1 1 (some 1) 1 1 true wZeroRB rbC5 rbC5_make P1
      (some [[2], [2]]) 0 _ _ hxy,
    causal_outputs_agree.2.2 1 1 1 2 1 1 (some 1) 2 wZeroNet wnetC6 wnetC6_make
      P1 (some [[2], [2]]) 0 _ _ hxy⟩

/-! ## Gated residual algebra (C5) and the dilation schedule (C6) -/

/-- C5: `ResBlock.forward` fuses the filter and gate paths as
`tanh(filter) * sigmoid(gate)`, with the conditioning projections added to
each path exactly when conditioning is enabled, and returns
`(stream + res_conv(activated)) * sqrt 0.5` as the new stream, together with
the skip projection of the activated value. -/
theorem gated_residual_algebra (B : ResBlock) (Pr : Prims) (x : Seq) :
    (∀ (fg : Conv1D × Conv1D) (c : Seq) (hfv hgv out str : Seq),
      B.cond_convs = some fg →
      seqAdd (B.filter_conv.forward x) (fg.1.apply c) = some hfv →
      seqAdd (B.gate_conv.forward x) (fg.2.apply c) = some hgv →
      seqMul (seqMap Pr.tanh hfv) (seqMap Pr.sigmoid hgv) = some out →
      seqAdd x (B.res_conv.apply out) = some str →
      B.forward Pr x (some c)
        = some (seqScale str Pr.sqrtHalf,
            B.skip_conv.map (fun sc => sc.apply out))) ∧
    (∀ (out str : Seq),
      B.cond_convs = none →
      seqMul (seqMap Pr.tanh (B.filter_conv.forward x))
        (seqMap Pr.sigmoid (B.gate_conv.forward x)) = some out →
      seqAdd x (B.res_conv.apply out) = some str →
      ∀ c, B.forward Pr x c
        = some (seqScale str Pr.sqrtHalf,
            B.skip_conv.map (fun sc => sc.apply out))) := by
  constructor
  · intro fg c hfv hgv out str hcc h1 h2 h3 h4
    unfold ResBlock.forward
    rw [hcc]
    simp only [bindo_eq, pureo_eq, Option.some_bind]
    rw [h1]
    simp only [Option.some_bind]
    rw [h2]
    simp only [Option.some_bind]
    rw [h3]
    simp only [Option.some_bind]
    rw [h4]
    simp only [Option.some_bind]
  · intro out str hcc h1 h2 c
    unfold ResBlock.forward
    rw [hcc]
    simp only [bindo_eq, pureo_eq, Option.some_bind]
    rw [h1]
    simp only [Option.some_bind]
    rw [h2]
    simp only [Option.some_bind]

theorem gated_residual_algebra_witness :
    rbC5.forward P1 [[1]] (some [[2]]) = some ([[1]], some [[0]]) := by
  have h1 : seqAdd (rbC5.filter_conv.forward [[1]])
      ((⟨1, 1, 1, zK, zB⟩ : Conv1D).apply [[2]]) = some [[0]] := by
    norm_num [rbC5, Conv.forward, Conv1D.apply, Conv1D.outLen, padSeq,
      seqWidth, entry, zK, zB, seqAdd, seqZipB, vecZipB, osequence,
      List.range_succ, Finset.sum_range_succ]
  have h2 : seqAdd (rbC5.gate_conv.forward [[1]])
      ((⟨1, 1, 1, zK, zB⟩ : Conv1D).apply [[2]]) = some [[0]] := by
    norm_num [rbC5, Conv.forward, Conv1D.apply, Conv1D.outLen, padSeq,
      seqWidth, entry, zK, zB, seqAdd, seqZipB, vecZipB, osequence,
      List.range_succ, Finset.sum_range_succ]
  have h3 : seqMul (seqMap P1.tanh [[0]]) (seqMap P1.sigmoid [[0]])
      = some [[0]] := by
    norm_num [P1, seqMap, seqMul, seqZipB, vecZipB, osequence]
  have h4 : seqAdd [[1]] (rbC5.res_conv.apply [[0]]) = some [[1]] := by
    norm_num [rbC5, Conv1D.apply, Conv1D.outLen, seqWidth, entry, zK, zB,
      seqAdd, seqZipB, vecZipB, osequence, List.range_succ,
      Finset.sum_range_succ]
  have h := (gated_residual_algebra rbC5 P1 [[1]]).1
    (⟨1, 1, 1, zK, zB⟩, ⟨1, 1, 1, zK, zB⟩) [[2]] [[0]] [[0]] [[0]] [[1]]
    rfl h1 h2 h3 h4
  rw [h]
  norm_num [rbC5, seqScale, Conv1D.apply, Conv1D.outLen, seqWidth, entry,
    zK, zB, P1, List.range_succ, Finset.sum_range_succ]

theorem flatMap_length_uniform {α β : Type} (f : α → List β) (L : ℕ)
    (hf : ∀ a, (f a).length = L) (l : List α) :
    (l.flatMap f).length = l.length * L := by
  induction l with
  | nil => simp
  | cons a l ih =>
    rw [List.flatMap_cons, List.length_append, hf, ih, List.length_cons,
      Nat.succ_mul]
    omega

theorem flatMap_get?_uniform {α β : Type} (f : α → List β) (L : ℕ)
    (hf : ∀ a, (f a).length = L) (l : List α) (n : ℕ) (hn : n < L) :
    ∀ i : ℕ, (l.flatMap f).get? (i * L + n)
      = (l.get? i).bind (fun a => (f a).get? n) := by
  induction l with
  | nil => intro i; simp
  | cons a l ih =>
    intro i
    rw [List.flatMap_cons, get?_append_split]
    cases i with
    | zero =>
      rw [if_pos (by rw [hf]; omega)]
      simp
    | succ j =>
      rw [if_neg (by rw [hf, Nat.succ_mul]; omega)]
      have harith : (j + 1) * L + n - (f a).length = j * L + n := by
        rw [hf, Nat.succ_mul]
        omega
      rw [harith, ih j]
      simp

theorem ResBlock.make_dilation {ic oc : ℕ} {sc : Option ℕ} {k d : ℤ}
    {lc cs : Bool} {w : ResBlockW} {B : ResBlock}
    (h : ResBlock.make ic oc sc k d lc cs w = some B) :
    B.filter_conv.conv.dilation = d.toNat ∧
      B.gate_conv.conv.dilation = d.toNat := by
  obtain ⟨fc, gc, hfc, hgc, rfl⟩ := resBlockMake_some h
  obtain ⟨-, -, rfl⟩ := convMake_some hfc
  obtain ⟨-, -, rfl⟩ := convMake_some hgc
  exact ⟨rfl, rfl⟩

/-- C6: a stack built with `num_blocks` groups of `num_layers` layers
constructs exactly `num_blocks * num_layers` gated residual blocks in
sequence, and the block at position `b * num_layers + n` (layer `n` of group
`b`) is built with dilation `kernel_size ^ n` in its filter and gate
convolutions — the dilation resets to `kernel_size ^ 0 = 1` at the start of
every group. -/
theorem stack_block_schedule {ic oc : ℕ} {nb nl : ℤ} {rc gc : ℕ}
    {sc : Option ℕ} {ks : ℤ} {cs : Bool} {w : WaveNetW} {W : WaveNet}
    (h : WaveNet.make ic oc nb nl rc gc sc ks cs w = some W) :
    W.res_blocks.length = nb.toNat * nl.toNat ∧
      ∀ b n, b < nb.toNat → n < nl.toNat →
        ∃ B, W.res_blocks.get? (b * nl.toNat + n) = some B ∧
          ResBlock.make rc gc sc ks (ks ^ n) true cs (w.blockW b n) = some B ∧
          B.filter_conv.conv.dilation = (ks ^ n).toNat ∧
          B.gate_conv.conv.dilation = (ks ^ n).toNat := by
  obtain ⟨front, blocks, final, hfront, hblocks, hfinal, rfl⟩ :=
    waveNetMake_some h
  obtain ⟨hlen, hget⟩ := mapM_some_get? hblocks
  have hidxlen : ((List.range nb.toNat).flatMap (fun b =>
      (List.range nl.toNat).map (fun n => (b, n)))).length
        = nb.toNat * nl.toNat := by
    rw [flatMap_length_uniform _ nl.toNat (fun a => by simp) _]
    simp
  refine ⟨by rw [show (WaveNet.mk sc.isSome front blocks final
    (ZeroConv1d.make (sc.getD rc) oc)).res_blocks = blocks from rfl, hlen,
    hidxlen], ?_⟩
  intro b n hb hn
  have hidx := flatMap_get?_uniform
    (fun b => (List.range nl.toNat).map (fun n => (b, n))) nl.toNat
    (fun a => by simp) (List.range nb.toNat) n hn b
  rw [List.get?_range hb] at hidx
  simp only [Option.some_bind, List.get?_map, List.get?_range hn,
    Option.map_some'] at hidx
  have h2 := hget (b * nl.toNat + n)
  rw [hidx] at h2
  rcases hbg : blocks.get? (b * nl.toNat + n) with - | B
  · rw [hbg] at h2
    exact absurd h2 (by simp)
  · rw [hbg] at h2
    simp only [Option.map_some'] at h2
    have hFB := Option.some.inj h2
    obtain ⟨hd1, hd2⟩ := ResBlock.make_dilation hFB
    exact ⟨B, rfl, hFB, hd1, hd2⟩

theorem stack_block_schedule_witness :
    wnetC6.res_blocks.length = 2 ∧
      (wnetC6.res_blocks.get? 1).map (fun B => B.filter_conv.conv.dilation)
        = some 2 := by
  have h := stack_block_schedule wnetC6_make
  refine ⟨by simpa using h.1, ?_⟩
  obtain ⟨B, hget, -, hdil, -⟩ := h.2 0 1 (by decide) (by decide)
  show (wnetC6.res_blocks.get? (0 * (2 : ℤ).toNat + 1)).map
    (fun B => B.filter_conv.conv.dilation) = some 2
  rw [hget]
  simp only [Option.map_some']
  rw [hdil]
  decide

/-! ## Shape lemmas for the skip path (C8) and the residual addition (C10) -/

theorem Conv.forward_causal_shape {C : Conv} (hC : C.CausalWF) (x : Seq) :
    shape (C.forward x) = List.replicate x.length C.conv.filters := by
  rw [Conv.forward_causal_eq hC]
  have happ := Conv1D.apply_shape C.conv (padSeq C.padding x)
  unfold shape at happ ⊢
  rw [List.map_take, happ, List.take_replicate,
    show min x.length (C.conv.outLen (padSeq C.padding x).length) = x.length from by
      rw [Conv1D.outLen, padSeq_length, ← hC.2]
      omega]

theorem osequence_zip_some_of_shape (f : ℚ → ℚ → ℚ) :
    ∀ {a b : Seq}, shape a = shape b →
      ∃ r, osequence (List.zipWith (vecZipB f) a b) = some r ∧
        shape r = shape a := by
  intro a
  induction a with
  | nil => intro b h; exact ⟨[], rfl, rfl⟩
  | cons u a ih =>
    intro b h
    cases b with
    | nil => cases h
    | cons v b =>
      unfold shape at h
      simp only [List.map_cons, List.cons.injEq] at h
      obtain ⟨r, hr, hshape⟩ := @ih b h.2
      have hv : vecZipB f u v = some (List.zipWith f u v) := by
        unfold vecZipB
        rw [if_pos h.1]
      refine ⟨List.zipWith f u v :: r, ?_, ?_⟩
      · simp [osequence, hv, hr]
      · unfold shape at hshape ⊢
        simp only [List.map_cons, List.length_zipWith, hshape, h.1,
          Nat.min_self]

theorem seqZipB_some_of_shape (f : ℚ → ℚ → ℚ) {a b : Seq}
    (h : shape a = shape b) :
    ∃ r, seqZipB f a b = some r ∧ shape r = shape a := by
  have hlen : a.length = b.length := by
    have := congrArg List.length h
    simpa [length_shape] using this
  obtain ⟨r, hr, hshape⟩ := osequence_zip_some_of_shape f h
  refine ⟨r, ?_, hshape⟩
  unfold seqZipB
  rw [if_pos hlen, hr]

theorem seqZipB_length_of_some_eqlen {f : ℚ → ℚ → ℚ} {a b r : Seq}
    (hlen : a.length = b.length) (h : seqZipB f a b = some r) :
    r.length = a.length := by
  unfold seqZipB at h
  rw [if_pos hlen] at h
  have := congrArg List.length (osequence_some_imp h)
  simp only [List.length_zipWith, List.length_map] at this
  omega

theorem WidthIs_of_shape_replicate {w n : ℕ} {s : Seq}
    (h : shape s = List.replicate n w) : WidthIs w s := by
  intro v hv
  have : v.length ∈ shape s := by
    unfold shape
    exact List.mem_map_of_mem List.length hv
  rw [h] at this
  exact List.eq_of_mem_replicate this

theorem ResBlock.forward_decomp {B : ResBlock} {Pr : Prims} {x : Seq}
    {c : Option Seq} {r : Seq × Option Seq} (h : B.forward Pr x c = some r) :
    ∃ hfv hgv out str,
      ((∀ fg, B.cond_convs = some fg → ∃ cv, c = some cv ∧
          seqAdd (B.filter_conv.forward x) (fg.1.apply cv) = some hfv ∧
          seqAdd (B.gate_conv.forward x) (fg.2.apply cv) = some hgv) ∧
        (B.cond_convs = none → hfv = B.filter_conv.forward x ∧
          hgv = B.gate_conv.forward x)) ∧
      seqMul (seqMap Pr.tanh hfv) (seqMap Pr.sigmoid hgv) = some out ∧
      seqAdd x (B.res_conv.apply out) = some str ∧
      r = (seqScale str Pr.sqrtHalf,
        B.skip_conv.map (fun sc => sc.apply out)) := by
  unfold ResBlock.forward at h
  rcases hcc : B.cond_convs with - | fg
  · rw [hcc] at h
    simp only [bindo_eq, pureo_eq, Option.some_bind, Option.bind_eq_some] at h
    obtain ⟨out, hout, str, hstr, hr⟩ := h
    exact ⟨_, _, out, str,
      ⟨fun fg hfg => absurd hfg (by simp), fun _ => ⟨rfl, rfl⟩⟩,
      hout, hstr, (Option.some.inj hr).symm⟩
  · rw [hcc] at h
    rcases c with - | cv
    · simp [bindo_eq, pureo_eq] at h
    · simp only [bindo_eq, pureo_eq, Option.some_bind, Option.bind_eq_some] at h
      obtain ⟨hfv, hhf, hgv, hhg, out, hout, str, hstr, hr⟩ := h
      exact ⟨hfv, hgv, out, str,
        ⟨fun fg' hfg => ⟨cv, rfl, by
            obtain rfl := Option.some.inj hfg
            exact hhf, by
            obtain rfl := Option.some.inj hfg
            exact hhg⟩,
          fun hn => absurd hn (by simp)⟩,
        hout, hstr, (Option.some.inj hr).symm⟩

/-- C8: a block built without `skip_channels` has no skip convolution and its
forward result carries no skip output (`none`, not a zero tensor), and a
stack built without `skip_channels` has its skip flag off and every block
skipless; a block built with `skip_channels = scn` (causal) always returns a
skip tensor, of the input's time-length and channel width `scn` (given
time-aligned conditioning). -/
theorem skip_path_toggle :
    (∀ (ic oc : ℕ) (k d : ℤ) (lc cs : Bool) (w : ResBlockW) (B : ResBlock),
        ResBlock.make ic oc none k d lc cs w = some B →
        B.skip_conv = none ∧
          ∀ (Pr : Prims) (x : Seq) (c : Option Seq) (r : Seq × Option Seq),
            B.forward Pr x c = some r → r.2 = none) ∧
      (∀ (ic oc : ℕ) (nb nl : ℤ) (rc gc : ℕ) (ks : ℤ) (cs : Bool)
          (w : WaveNetW) (W : WaveNet),
        WaveNet.make ic oc nb nl rc gc none ks cs w = some W →
        W.skip = false ∧ ∀ B ∈ W.res_blocks, B.skip_conv = none) ∧
      (∀ (ic oc scn : ℕ) (k d : ℤ) (lc : Bool) (w : ResBlockW) (B : ResBlock),
        ResBlock.make ic oc (some scn) k d lc true w = some B →
        B.skip_conv = some ⟨scn, 1, 1, w.skipK, w.skipB⟩ ∧
          ∀ (Pr : Prims) (x cv : Seq) (r : Seq × Option Seq),
            B.forward Pr x (some cv) = some r → cv.length = x.length →
            ∃ sv, r.2 = some sv ∧ sv.length = x.length ∧ WidthIs scn sv) := by
  refine ⟨?_, ?_, ?_⟩
  · intro ic oc k d lc cs w B h
    obtain ⟨fc, gc, hfc, hgc, rfl⟩ := resBlockMake_some h
    refine ⟨rfl, fun Pr x c r hr => ?_⟩
    obtain ⟨hfv, hgv, out, str, -, -, -, hreq⟩ := ResBlock.forward_decomp hr
    simp [hreq]
  · intro ic oc nb nl rc gc ks cs w W h
    obtain ⟨front, blocks, final, hfront, hblocks, hfinal, rfl⟩ :=
      waveNetMake_some h
    refine ⟨rfl, fun B hB => ?_⟩
    obtain ⟨bn, -, hmk⟩ := mapM_mem_source hblocks B hB
    obtain ⟨fc, gc, -, -, rfl⟩ := resBlockMake_some hmk
    rfl
  · intro ic oc scn k d lc w B h
    have hWF := resBlockMake_causalWF h
    obtain ⟨fc, gc, hfc, hgc, hBeq⟩ := resBlockMake_some h
    have hsk : B.skip_conv = some ⟨scn, 1, 1, w.skipK, w.skipB⟩ := by
      rw [hBeq]
      rfl
    refine ⟨hsk, fun Pr x cv r hr hcx => ?_⟩
    obtain ⟨hfv, hgv, out, str, ⟨hcond_some, hcond_none⟩, hout, hstr, hreq⟩ :=
      ResBlock.forward_decomp hr
    have hfl : hfv.length = x.length := by
      cases lc with
      | false =>
        obtain ⟨h1, -⟩ := hcond_none (by rw [hBeq]; simp)
        rw [h1]
        exact Conv.forward_causal_length hWF.1 x
      | true =>
        obtain ⟨cv', hcv, hhf, -⟩ := hcond_some
          (⟨oc, 1, 1, w.condFK, w.condFB⟩, ⟨oc, 1, 1, w.condGK, w.condGB⟩)
          (by rw [hBeq]; simp)
        obtain rfl := Option.some.inj hcv
        have hl1 : (B.filter_conv.forward x).length = x.length :=
          Conv.forward_causal_length hWF.1 x
        have hl2 : ((⟨oc, 1, 1, w.condFK, w.condFB⟩ : Conv1D).apply cv).length
            = cv.length := by
          rw [Conv1D.apply_length, Conv1D.outLen]
          simp
        have := seqZipB_length_of_some_eqlen
          (show (B.filter_conv.forward x).length
            = ((⟨oc, 1, 1, w.condFK, w.condFB⟩ : Conv1D).apply cv).length from by
              rw [hl1, hl2, hcx]) hhf
        rw [this, hl1]
    have hgl : hgv.length = x.length := by
      cases lc with
      | false =>
        obtain ⟨-, h2⟩ := hcond_none (by rw [hBeq]; simp)
        rw [h2]
        exact Conv.forward_causal_length hWF.2.1 x
      | true =>
        obtain ⟨cv', hcv, -, hhg⟩ := hcond_some
          (⟨oc, 1, 1, w.condFK, w.condFB⟩, ⟨oc, 1, 1, w.condGK, w.condGB⟩)
          (by rw [hBeq]; simp)
        obtain rfl := Option.some.inj hcv
        have hl1 : (B.gate_conv.forward x).length = x.length :=
          Conv.forward_causal_length hWF.2.1 x
        have hl2 : ((⟨oc, 1, 1, w.condGK, w.condGB⟩ : Conv1D).apply cv).length
            = cv.length := by
          rw [Conv1D.apply_length, Conv1D.outLen]
          simp
        have := seqZipB_length_of_some_eqlen
          (show (B.gate_conv.forward x).length
            = ((⟨oc, 1, 1, w.condGK, w.condGB⟩ : Conv1D).apply cv).length from by
              rw [hl1, hl2, hcx]) hhg
        rw [this, hl1]
    have houtl : out.length = x.length := by
      have := seqZipB_length_of_some_eqlen
        (show (seqMap Pr.tanh hfv).length = (seqMap Pr.sigmoid hgv).length from by
          simp [seqMap, hfl, hgl]) hout
      rw [this]
      simpa [seqMap] using hfl
    refine ⟨(⟨scn, 1, 1, w.skipK, w.skipB⟩ : Conv1D).apply out,
      by rw [hreq, hsk]; rfl, ?_, ?_⟩
    · rw [Conv1D.apply_length, Conv1D.outLen]
      simpa using houtl
    · exact Conv1D.apply_width _ out

theorem wnetC8_make :
    WaveNet.make 1 1 1 1 1 1 none 1 true wZeroNet = some wnetC8 := rfl

theorem skip_path_toggle_witness :
    rbC10.skip_conv = none ∧ wnetC8.skip = false ∧
      rbC5.skip_conv = some ⟨1, 1, 1, zK, zB⟩ :=
  ⟨(skip_path_toggle.1 2 1 1 1 false true wZeroRB rbC10 rbC10_make).1,
    (skip_path_toggle.2.1 1 1 1 1 1 1 1 true wZeroNet wnetC8 wnetC8_make).1,
    (skip_path_toggle.2.2 1 1 1 1 1 true wZeroRB rbC5 rbC5_make).1⟩

/-! ## Broadcasting of the residual addition (C10) -/

theorem vecZipB_isSome_iff (f : ℚ → ℚ → ℚ) (u v : List ℚ) :
    ((vecZipB f u v).isSome = true) ↔
      (u.length = v.length ∨ u.length = 1 ∨ v.length = 1) := by
  unfold vecZipB
  by_cases h1 : u.length = v.length
  · rw [if_pos h1]
    simp [h1]
  · rw [if_neg h1]
    by_cases h2 : u.length = 1
    · rw [if_pos h2]
      simp [h2]
    · rw [if_neg h2]
      by_cases h3 : v.length = 1
      · rw [if_pos h3]
        simp [h3]
      · rw [if_neg h3]
        simp [h1, h2, h3]

theorem seqAdd_isSome_iff_widths {a b : Seq} {wa wb : ℕ} (ha : WidthIs wa a)
    (hb : WidthIs wb b) (hlen : a.length = b.length) (hne : 1 ≤ a.length) :
    ((seqAdd a b).isSome = true) ↔ (wa = wb ∨ wa = 1 ∨ wb = 1) := by
  unfold seqAdd seqZipB
  rw [if_pos hlen, osequence_isSome_iff]
  constructor
  · intro hall
    rcases a with - | ⟨u, a'⟩
    · exact absurd hne (by simp)
    rcases b with - | ⟨v, b'⟩
    · exact absurd hlen (by simp)
    have h0 := hall (vecZipB (· + ·) u v) (by simp)
    rw [vecZipB_isSome_iff] at h0
    have hu : u.length = wa := ha u (by simp)
    have hv : v.length = wb := hb v (by simp)
    rcases h0 with h | h | h
    · exact Or.inl (by omega)
    · exact Or.inr (Or.inl (by omega))
    · exact Or.inr (Or.inr (by omega))
  · intro hc o ho
    obtain ⟨i, hi⟩ := List.mem_iff_get?.mp ho
    rw [zipWith_get?] at hi
    rcases hai : a.get? i with - | u
    · rw [hai] at hi
      cases hi
    rcases hbi : b.get? i with - | v
    · rw [hai, hbi] at hi
      cases hi
    rw [hai, hbi] at hi
    obtain rfl := Option.some.inj hi
    rw [vecZipB_isSome_iff]
    have hu : u.length = wa := ha u (List.mem_iff_get?.mpr ⟨i, hai⟩)
    have hv : v.length = wb := hb v (List.mem_iff_get?.mpr ⟨i, hbi⟩)
    rcases hc with h | h | h
    · exact Or.inl (by omega)
    · exact Or.inr (Or.inl (by omega))
    · exact Or.inr (Or.inr (by omega))

/-- C10 counterexample: a block constructed with stream width 2 but only one
output channel is constructible, and its forward call on a width-2 input
succeeds (the width-1 residual projection broadcasts), refuting the claim
that the addition fails whenever the two widths differ. -/
theorem residual_width_mismatch_cex :
    ResBlock.make 2 1 none 1 1 false true wZeroRB = some rbC10 ∧
      (rbC10.forward P1 [[1, 2]] none).isSome = true :=
  ⟨rbC10_make, by decide⟩

/-- C10 amended: for an unconditioned causal block on a non-empty stream of
channel width `win`, the forward call succeeds exactly when the residual
addition is well-shaped under numpy broadcasting: `win = out_channels`, or
one of the two widths is 1.  Construction itself never checks the widths. -/
theorem residual_width_amended {ic oc : ℕ} {k d : ℤ} {w : ResBlockW}
    {B : ResBlock} (h : ResBlock.make ic oc none k d false true w = some B)
    (Pr : Prims) (x : Seq) (win : ℕ) (hx : WidthIs win x) (hne : 1 ≤ x.length) :
    ((B.forward Pr x none).isSome = true) ↔ (win = oc ∨ win = 1 ∨ oc = 1) := by
  obtain ⟨fc, gc, hfc, hgc, hBeq⟩ := resBlockMake_some h
  have hWF := resBlockMake_causalWF h
  have hcnd : B.cond_convs = none := by
    rw [hBeq]
    rfl
  have hsk : B.skip_conv = none := by
    rw [hBeq]
    rfl
  have hres : B.res_conv = ⟨oc, 1, 1, w.resK, w.resB⟩ := by
    rw [hBeq]
  have hffil : B.filter_conv.conv.filters = oc := by
    rw [hBeq]
    exact (Conv.make_conv_fields hfc).2.1
  have hgfil : B.gate_conv.conv.filters = oc := by
    rw [hBeq]
    exact (Conv.make_conv_fields hgc).2.1
  have hfs : shape (B.filter_conv.forward x) = List.replicate x.length oc := by
    rw [Conv.forward_causal_shape hWF.1, hffil]
  have hgs : shape (B.gate_conv.forward x) = List.replicate x.length oc := by
    rw [Conv.forward_causal_shape hWF.2.1, hgfil]
  have hmulshape : shape (seqMap Pr.tanh (B.filter_conv.forward x))
      = shape (seqMap Pr.sigmoid (B.gate_conv.forward x)) := by
    rw [shape_seqMap, shape_seqMap, hfs, hgs]
  obtain ⟨out, hout0, houtshape⟩ := seqZipB_some_of_shape (· * ·) hmulshape
  have hout : seqMul (seqMap Pr.tanh (B.filter_conv.forward x))
      (seqMap Pr.sigmoid (B.gate_conv.forward x)) = some out := hout0
  have houts : shape out = List.replicate x.length oc := by
    rw [houtshape, shape_seqMap, hfs]
  have houtlen : out.length = x.length := by
    have := congrArg List.length houts
    simpa [length_shape] using this
  have hresl : (B.res_conv.apply out).length = out.length := by
    rw [hres, Conv1D.apply_length, Conv1D.outLen]
    simp
  have hresw : WidthIs oc (B.res_conv.apply out) := by
    rw [hres]
    exact Conv1D.apply_width _ out
  unfold ResBlock.forward
  rw [hcnd]
  simp only [bindo_eq, pureo_eq, Option.some_bind]
  rw [hout]
  simp only [Option.some_bind]
  rw [hsk]
  have hbind : ((seqAdd x (B.res_conv.apply out)).bind (fun str =>
      some (seqScale str Pr.sqrtHalf,
        (none : Option Conv1D).map (fun sc => sc.apply out)))).isSome
      = (seqAdd x (B.res_conv.apply out)).isSome := by
    cases seqAdd x (B.res_conv.apply out) <;> rfl
  rw [hbind]
  exact seqAdd_isSome_iff_widths hx hresw (by rw [hresl, houtlen]) hne

theorem residual_width_amended_witness :
    (rbC10.forward P1 [[1, 2]] none).isSome = true :=
  (residual_width_amended rbC10_make P1 [[1, 2]] 2
    (by intro v hv; rw [List.mem_singleton] at hv; subst hv; rfl)
    (by decide)).mpr (Or.inr (Or.inr rfl))

end TFF
